import Mathlib

/-!
Verification of the in-place associated-image removal routine for SVS
(TIFF-derived) whole-slide containers, `delete_associated_image` in
`deidentification.py`.

The file is modelled as a byte string (`List Nat`, one entry per byte).
The external container parser (`tiffparser`) is modelled by the data it
supplies: a format descriptor (pointer width, entry-count field width,
per-entry record width, byte order), and for every page its absolute
directory offset, decoded description, decoded strip offset / byte-count
arrays, and the per-tag out-of-line value location and value count.

All directory-chain reads (`num_tags`, the next-IFD pointer slot and its
value) are performed against the byte string itself, exactly as the
routine re-reads them from disk.
-/

/-- Bytes `[off, off+n)` of a file, truncated at end of file, as a Python
`seek(off); read(n)` returns them. -/
def readBytes (file : List Nat) (off n : Nat) : List Nat :=
  (file.drop off).take n

/-- Overwrite the file at `off` with `data`, as a Python
`seek(off); write(data)` does: bytes before `off` are kept, a gap past the
end of file is zero-filled, bytes after the written range are kept. -/
def writeBytes (file : List Nat) (off : Nat) (data : List Nat) : List Nat :=
  file.take off ++ List.replicate (off - file.length) 0 ++ data
    ++ file.drop (off + data.length)

/-- Apply a sequence of `(offset, data)` writes left to right. -/
def applyWrites (file : List Nat) (ws : List (Nat × List Nat)) : List Nat :=
  ws.foldl (fun f w => writeBytes f w.1 w.2) file

/-- Little-endian value of a byte list (`struct.unpack` with `<`). -/
def bytesToNatLE : List Nat → Nat
  | [] => 0
  | b :: bs => b + 256 * bytesToNatLE bs

/-- Value of a byte list in the given byte order. -/
def bytesToNat (bigEndian : Bool) (bs : List Nat) : Nat :=
  bytesToNatLE (if bigEndian then bs.reverse else bs)

/-- Little-endian encoding of a value into `w` bytes (`struct.pack`). -/
def natToBytesLE : Nat → Nat → List Nat
  | 0, _ => []
  | w + 1, v => v % 256 :: natToBytesLE w (v / 256)

/-- Encoding of a value into `w` bytes in the given byte order. -/
def natToBytes (bigEndian : Bool) (w v : Nat) : List Nat :=
  if bigEndian then (natToBytesLE w v).reverse else natToBytesLE w v

/-- Read a `width`-byte unsigned integer at `off`; `none` when fewer than
`width` bytes remain (a short read makes `struct.unpack` raise). -/
def readUInt (bigEndian : Bool) (file : List Nat) (off width : Nat) : Option Nat :=
  let bs := readBytes file off width
  if bs.length = width then some (bytesToNat bigEndian bs) else none

/-- The Format Descriptor: struct-decoding parameters of the container
dialect, supplied by the parser (`t.tiff`). -/
structure FormatDescriptor where
  /-- Width in bytes of a chain pointer (`ifdoffsetsize`). -/
  offsetsize : Nat
  /-- Width in bytes of the directory entry-count field (`tagnosize`). -/
  tagnosize : Nat
  /-- Width in bytes of one directory entry record (`tagsize`). -/
  tagsize : Nat
  /-- Byte order of the container. -/
  bigEndian : Bool
deriving DecidableEq, Repr

/-- A decoded tag of a page, as the parser exposes it: the absolute file
position of its value bytes, its value count, and the byte width of one
value element (the parser's dtype size; the value's byte length is
`count * dtypesize`). -/
structure TiffTag where
  valueoffset : Nat
  count : Nat
  dtypesize : Nat
deriving DecidableEq, Repr

/-- A page as the parser exposes it: its directory offset, its decoded
description text, its decoded strip offset and strip byte-count arrays,
and its decoded tag set in iteration order. -/
structure ParsedPage where
  offset : Nat
  description : List Char
  stripOffsets : List Nat
  stripByteCounts : List Nat
  tags : List TiffTag
deriving DecidableEq, Repr

/-- The parser's view of an open container (`tiffparser.TiffFile`). -/
structure TiffFile where
  tiff : FormatDescriptor
  /-- First-directory offset stored in the container header. -/
  firstIFD : Nat
  pages : List ParsedPage
deriving DecidableEq, Repr

/-- One page's raw directory-chain data, re-read from the file bytes. -/
structure IfdInfo where
  this : Nat
  next_ifd_offset : Nat
  next_ifd_value : Nat
deriving DecidableEq, Repr

/-- Re-read one directory header from the file: the entry count at `off`,
then the chain-pointer slot position `off + tagnosize + num_tags * tagsize`
and the pointer value stored there (lines 35-40 of the routine). -/
def readIfd (fd : FormatDescriptor) (file : List Nat) (off : Nat) : Option IfdInfo :=
  (readUInt fd.bigEndian file off fd.tagnosize).bind fun num_tags =>
    (readUInt fd.bigEndian file (off + fd.tagnosize + num_tags * fd.tagsize)
        fd.offsetsize).bind fun v =>
      some ⟨off, off + fd.tagnosize + num_tags * fd.tagsize, v⟩

/-- Re-read the directory chain data of every page, in page-list order;
fails on the first malformed directory. -/
def buildIfds (fd : FormatDescriptor) (file : List Nat) : List ParsedPage → Option (List IfdInfo)
  | [] => some []
  | p :: ps =>
    match readIfd fd file p.offset, buildIfds fd file ps with
    | some i, some is => some (i :: is)
    | _, _ => none

/-- Substring containment on character lists (Python `needle in hay`). -/
def isSubstr (needle hay : List Char) : Bool :=
  (List.range (hay.length + 1)).any fun i => needle.isPrefixOf (hay.drop i)

/-- The category word for the slide-label image. -/
def labelChars : List Char := ['l', 'a', 'b', 'e', 'l']

/-- The category word for the low-resolution overview image. -/
def macroChars : List Char := ['m', 'a', 'c', 'r', 'o']

/-- The destructive write sequence of the Eraser/Unlinker, in source
order: zero every strip range (`zip` of offsets and byte counts), zero
`count` bytes at every tag's value offset, zero the page's directory
region (entry-count field through chain-pointer slot), then write the
removed page's own next-pointer value into the predecessor's slot. -/
def eraseWrites (fd : FormatDescriptor) (page : ParsedPage)
    (pageifd previfd : IfdInfo) : List (Nat × List Nat) :=
  ((page.stripOffsets.zip page.stripByteCounts).map fun ob =>
      (ob.1, List.replicate ob.2 0))
  ++ (page.tags.map fun tg => (tg.valueoffset, List.replicate tg.count 0))
  ++ [(pageifd.this,
        List.replicate (pageifd.next_ifd_offset - pageifd.this + fd.offsetsize) 0),
      (previfd.next_ifd_offset,
        natToBytes fd.bigEndian fd.offsetsize pageifd.next_ifd_value)]

/-- Resulting file after the four destructive write phases (lines 49-69). -/
def erasePage (fd : FormatDescriptor) (file : List Nat) (page : ParsedPage)
    (pageifd previfd : IfdInfo) : List Nat :=
  applyWrites file (eraseWrites fd page pageifd previfd)

/-- Outcome of the removal routine: each early `raise` / `return` path and
the success path. -/
inductive DeleteResult where
  | invalidImageType
  | duplicateMatch
  | noMatch
  | structError
  | noPageIfd
  | noPredecessor
  | success
deriving DecidableEq, Repr

/-- The removal routine `delete_associated_image`, as a function from the
parser's view and the file bytes to an outcome and the resulting file
bytes. Mirrors the source: category validation, duplicate / zero match
checks on the description filter, the directory-chain walk, the
first-element lookups of the page's own node and of a predecessor node,
and the four write phases. -/
def delete_associated_image (t : TiffFile) (file : List Nat)
    (image_type : List Char) : DeleteResult × List Nat :=
  if image_type = labelChars ∨ image_type = macroChars then
    if 1 < (t.pages.filter fun p => isSubstr image_type p.description).length then
      (DeleteResult.duplicateMatch, file)
    else
      match t.pages.filter fun p => isSubstr image_type p.description with
      | [] => (DeleteResult.noMatch, file)
      | page :: _ =>
        match buildIfds t.tiff file t.pages with
        | none => (DeleteResult.structError, file)
        | some ifds =>
          match (ifds.filter fun i => i.this == page.offset).head? with
          | none => (DeleteResult.noPageIfd, file)
          | some pageifd =>
            match (ifds.filter fun i => i.next_ifd_value == page.offset).head? with
            | none => (DeleteResult.noPredecessor, file)
            | some previfd =>
              (DeleteResult.success, erasePage t.tiff file page pageifd previfd)
  else (DeleteResult.invalidImageType, file)

/-- Walk the directory chain from `cur`, collecting the visited directory
offsets, with `fuel` bounding the number of nodes; ends at the zero
sentinel. -/
def walkChain (fd : FormatDescriptor) (file : List Nat) : Nat → Nat → Option (List Nat)
  | 0, cur => if cur = 0 then some [] else none
  | fuel + 1, cur =>
    if cur = 0 then some []
    else
      match readIfd fd file cur with
      | none => none
      | some ifd => Option.map (fun l => cur :: l) (walkChain fd file fuel ifd.next_ifd_value)

/-- Relational form of a chain walk: from `start`, the nodes listed in `l`
are visited in order and the last node's pointer holds `stop`. -/
def chainSeg (fd : FormatDescriptor) (file : List Nat) : Nat → List Nat → Nat → Prop
  | start, [], stop => start = stop
  | start, o :: rest, stop =>
      start = o ∧ o ≠ 0 ∧
      ∃ ifd, readIfd fd file o = some ifd ∧
        chainSeg fd file ifd.next_ifd_value rest stop

/-- Linkage of a list of re-read directory nodes: each node sits where the
previous pointer said, and the last node's pointer holds `stop`. -/
def isLinked : Nat → List IfdInfo → Nat → Prop
  | start, [], stop => start = stop
  | start, ifd :: rest, stop =>
      ifd.this = start ∧ start ≠ 0 ∧ isLinked ifd.next_ifd_value rest stop

/-- The zeroed ranges of a removal, as `(offset, length)` pairs: the strip
ranges, each tag's `(valueoffset, count)` range, and the directory region. -/
def zeroRanges (fd : FormatDescriptor) (page : ParsedPage) (pageifd : IfdInfo) :
    List (Nat × Nat) :=
  page.stripOffsets.zip page.stripByteCounts
  ++ (page.tags.map fun tg => (tg.valueoffset, tg.count))
  ++ [(pageifd.this, pageifd.next_ifd_offset - pageifd.this + fd.offsetsize)]

/-- Two half-open byte ranges do not overlap. -/
def rangesDisjoint (o1 n1 o2 n2 : Nat) : Prop :=
  o1 + n1 ≤ o2 ∨ o2 + n2 ≤ o1

instance (o1 n1 o2 n2 : Nat) : Decidable (rangesDisjoint o1 n1 o2 n2) := by
  unfold rangesDisjoint; infer_instance

/-- Chain-pointer slot position as the spec words it: `this_offset` plus
the entry-count-field width plus `entry_count` times the entry record
width. -/
def specNextPointerOffset (fd : FormatDescriptor) (this_offset entry_count : Nat) : Nat :=
  this_offset + fd.tagnosize + entry_count * fd.tagsize


/-! ### Byte-level lemmas -/

theorem readBytes_length (file : List Nat) (off n : Nat) :
    (readBytes file off n).length = min n (file.length - off) := by
  simp [readBytes]

theorem readBytes_getElem? (file : List Nat) (off n j : Nat) :
    (readBytes file off n)[j]? = if j < n then file[off + j]? else none := by
  unfold readBytes
  by_cases h : j < n
  · rw [if_pos h, List.getElem?_take_of_lt h, List.getElem?_drop]
  · rw [if_neg h]
    refine List.getElem?_eq_none ?_
    calc (List.take n (file.drop off)).length ≤ n := List.length_take_le _ _
    _ ≤ j := by omega

theorem writeBytes_length (file : List Nat) (off : Nat) (d : List Nat) :
    (writeBytes file off d).length = max file.length (off + d.length) := by
  simp [writeBytes]
  omega

theorem writeBytes_getElem? (file : List Nat) (off : Nat) (d : List Nat) (i : Nat) :
    (writeBytes file off d)[i]? =
      if i < min off file.length then file[i]?
      else if i < off then some 0
      else if i < off + d.length then d[i - off]?
      else file[i]? := by
  unfold writeBytes
  have hA : (file.take off).length = min off file.length := by simp
  have hAB : (file.take off ++ List.replicate (off - file.length) 0).length = off := by
    simp
    omega
  have hABd : (file.take off ++ List.replicate (off - file.length) 0 ++ d).length
      = off + d.length := by
    simp
    omega
  by_cases h1 : i < min off file.length
  · rw [List.getElem?_append_left (by omega : i < (file.take off ++
        List.replicate (off - file.length) 0 ++ d).length),
      List.getElem?_append_left (by omega : i < (file.take off ++
        List.replicate (off - file.length) 0).length),
      List.getElem?_append_left (by omega : i < (file.take off).length),
      List.getElem?_take_of_lt (by omega), if_pos h1]
  · by_cases h2 : i < off
    · have hfl : file.length ≤ i := by omega
      rw [List.getElem?_append_left (by omega : i < (file.take off ++
          List.replicate (off - file.length) 0 ++ d).length),
        List.getElem?_append_left (by omega : i < (file.take off ++
          List.replicate (off - file.length) 0).length),
        List.getElem?_append_right (by omega : (file.take off).length ≤ i),
        List.getElem?_replicate_of_lt (by omega), if_neg h1, if_pos h2]
    · by_cases h3 : i < off + d.length
      · rw [List.getElem?_append_left (by omega : i < (file.take off ++
            List.replicate (off - file.length) 0 ++ d).length),
          List.getElem?_append_right (by omega : (file.take off ++
            List.replicate (off - file.length) 0).length ≤ i),
          hAB, if_neg h1, if_neg h2, if_pos h3]
      · rw [List.getElem?_append_right (by omega : (file.take off ++
            List.replicate (off - file.length) 0 ++ d).length ≤ i),
          hABd, List.getElem?_drop, if_neg h1, if_neg h2, if_neg h3]
        congr 1
        omega

theorem readBytes_writeBytes_self (file : List Nat) (off : Nat) (d : List Nat) :
    readBytes (writeBytes file off d) off d.length = d := by
  apply List.ext_getElem?
  intro j
  rw [readBytes_getElem?]
  by_cases h : j < d.length
  · rw [if_pos h, writeBytes_getElem?]
    rw [if_neg (by omega), if_neg (by omega), if_pos (by omega)]
    congr 1
    omega
  · rw [if_neg h]
    exact (List.getElem?_eq_none (by omega)).symm

theorem readBytes_writeBytes_disjoint (file : List Nat) {o1 n o2 : Nat}
    (d : List Nat) (hdis : o1 + n ≤ o2 ∨ o2 + d.length ≤ o1)
    (hbound : o1 + n ≤ file.length) :
    readBytes (writeBytes file o2 d) o1 n = readBytes file o1 n := by
  apply List.ext_getElem?
  intro j
  rw [readBytes_getElem?, readBytes_getElem?]
  by_cases h : j < n
  · rw [if_pos h, if_pos h, writeBytes_getElem?]
    rcases hdis with hL | hR
    · rw [if_pos (by omega)]
    · rw [if_neg (by omega), if_neg (by omega), if_neg (by omega)]
  · rw [if_neg h, if_neg h]

/-! ### Write-sequence lemmas -/

theorem applyWrites_nil (file : List Nat) : applyWrites file [] = file := rfl

theorem applyWrites_cons (file : List Nat) (w : Nat × List Nat) (ws : List (Nat × List Nat)) :
    applyWrites file (w :: ws) = applyWrites (writeBytes file w.1 w.2) ws := rfl

theorem applyWrites_append (file : List Nat) (ws1 ws2 : List (Nat × List Nat)) :
    applyWrites file (ws1 ++ ws2) = applyWrites (applyWrites file ws1) ws2 := by
  unfold applyWrites
  exact List.foldl_append _ _ _ _

theorem length_le_applyWrites (file : List Nat) (ws : List (Nat × List Nat)) :
    file.length ≤ (applyWrites file ws).length := by
  induction ws generalizing file with
  | nil => simp [applyWrites_nil]
  | cons w ws ih =>
    rw [applyWrites_cons]
    calc file.length ≤ (writeBytes file w.1 w.2).length := by
          rw [writeBytes_length]; omega
    _ ≤ _ := ih _

theorem applyWrites_length_of_inbounds (file : List Nat) (ws : List (Nat × List Nat))
    (hb : ∀ w ∈ ws, w.1 + w.2.length ≤ file.length) :
    (applyWrites file ws).length = file.length := by
  induction ws generalizing file with
  | nil => rfl
  | cons w ws ih =>
    rw [applyWrites_cons]
    have hw : (writeBytes file w.1 w.2).length = file.length := by
      rw [writeBytes_length]
      have := hb w (List.mem_cons_self _ _)
      omega
    rw [ih _ (by intro u hu; rw [hw]; exact hb u (List.mem_cons_of_mem _ hu)), hw]

theorem readBytes_applyWrites_disjoint (file : List Nat) (ws : List (Nat × List Nat))
    {o1 n : Nat} (hdis : ∀ w ∈ ws, o1 + n ≤ w.1 ∨ w.1 + w.2.length ≤ o1)
    (hbound : o1 + n ≤ file.length) :
    readBytes (applyWrites file ws) o1 n = readBytes file o1 n := by
  induction ws generalizing file with
  | nil => rfl
  | cons w ws ih =>
    rw [applyWrites_cons]
    have h1 : readBytes (writeBytes file w.1 w.2) o1 n = readBytes file o1 n :=
      readBytes_writeBytes_disjoint file w.2 (hdis w (List.mem_cons_self _ _)) hbound
    rw [← h1]
    refine ih _ (fun u hu => hdis u (List.mem_cons_of_mem _ hu)) ?_
    rw [writeBytes_length]
    omega

theorem getElem?_applyWrites_disjoint (file : List Nat) (ws : List (Nat × List Nat))
    {i : Nat} (hdis : ∀ w ∈ ws, i < w.1 ∨ w.1 + w.2.length ≤ i)
    (hbound : i < file.length) :
    (applyWrites file ws)[i]? = file[i]? := by
  induction ws generalizing file with
  | nil => rfl
  | cons w ws ih =>
    rw [applyWrites_cons]
    have h1 : (writeBytes file w.1 w.2)[i]? = file[i]? := by
      rw [writeBytes_getElem?]
      rcases hdis w (List.mem_cons_self _ _) with hL | hR
      · rw [if_pos (by omega)]
      · rw [if_neg (by omega), if_neg (by omega), if_neg (by omega)]
    rw [← h1]
    refine ih _ (fun u hu => hdis u (List.mem_cons_of_mem _ hu)) ?_
    rw [writeBytes_length]
    omega

theorem getElem?_writeBytes_zero_mem (file : List Nat) {off n i : Nat}
    (h1 : off ≤ i) (h2 : i < off + n) :
    (writeBytes file off (List.replicate n 0))[i]? = some 0 := by
  rw [writeBytes_getElem?]
  rw [if_neg (by omega), if_neg (by omega),
    if_pos (by simp only [List.length_replicate]; omega),
    List.getElem?_replicate_of_lt (by omega)]

theorem getElem?_writeBytes_zero_preserved (file : List Nat) {off : Nat}
    (d : List Nat) {i : Nat} (h0 : file[i]? = some 0)
    (h : (∀ b ∈ d, b = 0) ∨ i < off ∨ off + d.length ≤ i) :
    (writeBytes file off d)[i]? = some 0 := by
  rw [writeBytes_getElem?]
  by_cases h1 : i < min off file.length
  · rwa [if_pos h1]
  · by_cases h2 : i < off
    · rw [if_neg h1, if_pos h2]
    · by_cases h3 : i < off + d.length
      · rw [if_neg h1, if_neg h2, if_pos h3]
        rcases h with hz | hL | hR
        · have hlt : i - off < d.length := by omega
          rw [List.getElem?_eq_getElem hlt, hz _ (List.getElem_mem hlt)]
        · omega
        · omega
      · rwa [if_neg h1, if_neg h2, if_neg h3]

theorem getElem?_applyWrites_zero_preserved (file : List Nat) (ws : List (Nat × List Nat))
    {i : Nat} (h0 : file[i]? = some 0)
    (h : ∀ w ∈ ws, (∀ b ∈ w.2, b = 0) ∨ i < w.1 ∨ w.1 + w.2.length ≤ i) :
    (applyWrites file ws)[i]? = some 0 := by
  induction ws generalizing file with
  | nil => exact h0
  | cons w ws ih =>
    rw [applyWrites_cons]
    exact ih _ (getElem?_writeBytes_zero_preserved file w.2 h0
        (h w (List.mem_cons_self _ _)))
      (fun u hu => h u (List.mem_cons_of_mem _ hu))

/-! ### Integer encoding lemmas -/

theorem natToBytesLE_length (w v : Nat) : (natToBytesLE w v).length = w := by
  induction w generalizing v with
  | zero => rfl
  | succ w ih => simp [natToBytesLE, ih]

theorem natToBytes_length (big : Bool) (w v : Nat) : (natToBytes big w v).length = w := by
  unfold natToBytes
  cases big <;> simp [natToBytesLE_length]

theorem bytesToNatLE_natToBytesLE (w v : Nat) :
    bytesToNatLE (natToBytesLE w v) = v % 256 ^ w := by
  induction w generalizing v with
  | zero => simp [natToBytesLE, bytesToNatLE, Nat.mod_one]
  | succ w ih =>
    rw [natToBytesLE, bytesToNatLE, ih, pow_succ, mul_comm (256 ^ w) 256,
      Nat.mod_mul]

theorem bytesToNatLE_lt (bs : List Nat) (h : ∀ b ∈ bs, b < 256) :
    bytesToNatLE bs < 256 ^ bs.length := by
  induction bs with
  | nil => simp [bytesToNatLE]
  | cons b bs ih =>
    have hb : b < 256 := h b (List.mem_cons_self _ _)
    have hbs : bytesToNatLE bs < 256 ^ bs.length :=
      ih fun x hx => h x (List.mem_cons_of_mem _ hx)
    rw [bytesToNatLE, List.length_cons, pow_succ, mul_comm (256 ^ bs.length) 256]
    calc b + 256 * bytesToNatLE bs < 256 + 256 * bytesToNatLE bs := by omega
    _ = 256 * (bytesToNatLE bs + 1) := by ring
    _ ≤ 256 * 256 ^ bs.length := by
        exact Nat.mul_le_mul_left _ (by omega)

theorem bytesToNat_lt (big : Bool) (bs : List Nat) (h : ∀ b ∈ bs, b < 256) :
    bytesToNat big bs < 256 ^ bs.length := by
  unfold bytesToNat
  cases big
  · exact bytesToNatLE_lt bs h
  · simpa using bytesToNatLE_lt bs.reverse (by simpa using h)

theorem bytesToNat_natToBytes (big : Bool) (w v : Nat) (h : v < 256 ^ w) :
    bytesToNat big (natToBytes big w v) = v := by
  unfold bytesToNat natToBytes
  cases big
  · simpa [bytesToNatLE_natToBytesLE] using Nat.mod_eq_of_lt h
  · simpa [bytesToNatLE_natToBytesLE] using Nat.mod_eq_of_lt h

/-! ### Read lemmas -/

theorem readUInt_inv {big : Bool} {file : List Nat} {off w v : Nat}
    (h : readUInt big file off w = some v) :
    (readBytes file off w).length = w ∧ v = bytesToNat big (readBytes file off w) := by
  unfold readUInt at h
  by_cases hl : (readBytes file off w).length = w
  · rw [if_pos hl] at h
    exact ⟨hl, (Option.some.inj h).symm⟩
  · rw [if_neg hl] at h
    exact absurd h (by simp)

theorem readUInt_inbounds {big : Bool} {file : List Nat} {off w v : Nat}
    (h : readUInt big file off w = some v) (hw : 0 < w) :
    off + w ≤ file.length := by
  have := (readUInt_inv h).1
  rw [readBytes_length] at this
  omega

theorem mem_readBytes_sub {file : List Nat} {off w b : Nat}
    (h : b ∈ readBytes file off w) : b ∈ file := by
  unfold readBytes at h
  exact (List.drop_subset _ _) ((List.take_subset _ _) h)

theorem readUInt_bound {big : Bool} {file : List Nat} {off w v : Nat}
    (hbytes : ∀ b ∈ file, b < 256) (h : readUInt big file off w = some v) :
    v < 256 ^ w := by
  obtain ⟨hl, hv⟩ := readUInt_inv h
  calc v = bytesToNat big (readBytes file off w) := hv
  _ < 256 ^ (readBytes file off w).length :=
      bytesToNat_lt big _ fun b hb => hbytes b (mem_readBytes_sub hb)
  _ = 256 ^ w := by rw [hl]

theorem readUInt_applyWrites_disjoint {big : Bool} {file : List Nat}
    {ws : List (Nat × List Nat)} {off w v : Nat}
    (h : readUInt big file off w = some v)
    (hdis : ∀ u ∈ ws, off + w ≤ u.1 ∨ u.1 + u.2.length ≤ off) :
    readUInt big (applyWrites file ws) off w = some v := by
  rcases Nat.eq_zero_or_pos w with hw | hw
  · subst hw
    unfold readUInt at h ⊢
    simpa [readBytes] using h
  · have hb := readUInt_inbounds h hw
    unfold readUInt at h ⊢
    rwa [readBytes_applyWrites_disjoint file ws hdis hb]

theorem readIfd_inv {fd : FormatDescriptor} {file : List Nat} {off : Nat}
    {ifd : IfdInfo} (h : readIfd fd file off = some ifd) :
    ∃ num_tags,
      readUInt fd.bigEndian file off fd.tagnosize = some num_tags ∧
      ifd.this = off ∧
      ifd.next_ifd_offset = off + fd.tagnosize + num_tags * fd.tagsize ∧
      readUInt fd.bigEndian file ifd.next_ifd_offset fd.offsetsize
        = some ifd.next_ifd_value := by
  unfold readIfd at h
  rcases h1 : readUInt fd.bigEndian file off fd.tagnosize with _ | num_tags
  · rw [h1] at h
    exact absurd h (by simp)
  · rw [h1, Option.some_bind] at h
    rcases h2 : readUInt fd.bigEndian file
        (off + fd.tagnosize + num_tags * fd.tagsize) fd.offsetsize with _ | v
    · rw [h2] at h
      exact absurd h (by simp)
    · rw [h2, Option.some_bind] at h
      obtain rfl := Option.some.inj h
      exact ⟨num_tags, rfl, rfl, rfl, h2⟩

theorem readIfd_applyWrites_disjoint {fd : FormatDescriptor} {file : List Nat}
    {ws : List (Nat × List Nat)} {off : Nat} {ifd : IfdInfo}
    (h : readIfd fd file off = some ifd)
    (hdis1 : ∀ u ∈ ws, off + fd.tagnosize ≤ u.1 ∨ u.1 + u.2.length ≤ off)
    (hdis2 : ∀ u ∈ ws, ifd.next_ifd_offset + fd.offsetsize ≤ u.1 ∨
      u.1 + u.2.length ≤ ifd.next_ifd_offset) :
    readIfd fd (applyWrites file ws) off = some ifd := by
  obtain ⟨num_tags, h1, hthis, hnoff, h2⟩ := readIfd_inv h
  subst hthis
  unfold readIfd
  rw [readUInt_applyWrites_disjoint h1 hdis1, Option.some_bind, ← hnoff,
    readUInt_applyWrites_disjoint h2 hdis2, Option.some_bind]

/-! ### Chain lemmas -/

theorem walkChain_zero (fd : FormatDescriptor) (file : List Nat) (cur : Nat) :
    walkChain fd file 0 cur = if cur = 0 then some [] else none := rfl

theorem walkChain_succ (fd : FormatDescriptor) (file : List Nat) (fuel cur : Nat) :
    walkChain fd file (fuel + 1) cur =
      if cur = 0 then some []
      else
        match readIfd fd file cur with
        | none => none
        | some ifd =>
          Option.map (fun l => cur :: l) (walkChain fd file fuel ifd.next_ifd_value) := rfl

theorem walkChain_sound {fd : FormatDescriptor} {file : List Nat} :
    ∀ {fuel start : Nat} {l : List Nat},
    walkChain fd file fuel start = some l → chainSeg fd file start l 0 := by
  intro fuel
  induction fuel with
  | zero =>
    intro start l h
    rw [walkChain_zero] at h
    by_cases h0 : start = 0
    · rw [if_pos h0] at h
      obtain rfl := Option.some.inj h
      exact h0
    · rw [if_neg h0] at h
      exact absurd h (by simp)
  | succ fuel ih =>
    intro start l h
    rw [walkChain_succ] at h
    by_cases h0 : start = 0
    · rw [if_pos h0] at h
      obtain rfl := Option.some.inj h
      exact h0
    · rw [if_neg h0] at h
      rcases hr : readIfd fd file start with _ | ifd
      · simp only [hr] at h
        exact absurd h (by simp)
      · simp only [hr] at h
        rcases hw : walkChain fd file fuel ifd.next_ifd_value with _ | l'
        · simp only [hw, Option.map_none'] at h
          exact absurd h (by simp)
        · simp only [hw, Option.map_some'] at h
          obtain rfl := Option.some.inj h
          exact ⟨rfl, h0, ifd, hr, ih hw⟩

theorem walkChain_complete {fd : FormatDescriptor} {file : List Nat} :
    ∀ {l : List Nat} {start fuel : Nat},
    chainSeg fd file start l 0 → l.length ≤ fuel →
    walkChain fd file fuel start = some l := by
  intro l
  induction l with
  | nil =>
    intro start fuel h _
    have h0 : start = 0 := h
    cases fuel
    · rw [walkChain_zero, if_pos h0]
    · rw [walkChain_succ, if_pos h0]
  | cons o rest ih =>
    intro start fuel h hlen
    obtain ⟨rfl, h0, ifd, hr, hseg⟩ := h
    rcases fuel with _ | fuel
    · simp at hlen
    · have hlen' : rest.length ≤ fuel := by simpa using hlen
      rw [walkChain_succ, if_neg h0]
      simp only [hr, ih hseg hlen', Option.map_some']

theorem walkChain_length_le {fd : FormatDescriptor} {file : List Nat} :
    ∀ {fuel start : Nat} {l : List Nat},
    walkChain fd file fuel start = some l → l.length ≤ fuel := by
  intro fuel
  induction fuel with
  | zero =>
    intro start l h
    rw [walkChain_zero] at h
    by_cases h0 : start = 0
    · rw [if_pos h0] at h
      obtain rfl := Option.some.inj h
      simp
    · rw [if_neg h0] at h
      exact absurd h (by simp)
  | succ fuel ih =>
    intro start l h
    rw [walkChain_succ] at h
    by_cases h0 : start = 0
    · rw [if_pos h0] at h
      obtain rfl := Option.some.inj h
      simp
    · rw [if_neg h0] at h
      rcases hr : readIfd fd file start with _ | ifd
      · simp only [hr] at h
        exact absurd h (by simp)
      · simp only [hr] at h
        rcases hw : walkChain fd file fuel ifd.next_ifd_value with _ | l'
        · simp only [hw, Option.map_none'] at h
          exact absurd h (by simp)
        · simp only [hw, Option.map_some'] at h
          obtain rfl := Option.some.inj h
          simpa using ih hw

theorem chainSeg_append {fd : FormatDescriptor} {file : List Nat} :
    ∀ {A : List Nat} {start stop : Nat} {B : List Nat},
    chainSeg fd file start (A ++ B) stop ↔
      ∃ m, chainSeg fd file start A m ∧ chainSeg fd file m B stop := by
  intro A
  induction A with
  | nil =>
    intro start stop B
    constructor
    · intro h
      exact ⟨start, rfl, h⟩
    · rintro ⟨m, hm, hB⟩
      have h' : start = m := hm
      rwa [show start = m from h']
  | cons a A ih =>
    intro start stop B
    constructor
    · rintro ⟨rfl, h0, ifd, hr, hseg⟩
      obtain ⟨m, hA, hB⟩ := ih.1 hseg
      exact ⟨m, ⟨rfl, h0, ifd, hr, hA⟩, hB⟩
    · rintro ⟨m, ⟨rfl, h0, ifd, hr, hA⟩, hB⟩
      exact ⟨rfl, h0, ifd, hr, ih.2 ⟨m, hA, hB⟩⟩

theorem chainSeg_preserved {fd : FormatDescriptor} {file g : List Nat} :
    ∀ {l : List Nat} {start stop : Nat},
    chainSeg fd file start l stop →
    (∀ o ∈ l, readIfd fd g o = readIfd fd file o) →
    chainSeg fd g start l stop := by
  intro l
  induction l with
  | nil =>
    intro start stop h _
    exact h
  | cons o rest ih =>
    rintro start stop ⟨rfl, h0, ifd, hr, hseg⟩ hpres
    refine ⟨rfl, h0, ifd, ?_, ih hseg fun x hx => hpres x (List.mem_cons_of_mem _ hx)⟩
    rw [hpres start (List.mem_cons_self _ _), hr]

theorem chainSeg_readIfd_some {fd : FormatDescriptor} {file : List Nat} :
    ∀ {l : List Nat} {start stop : Nat},
    chainSeg fd file start l stop →
    ∀ o ∈ l, ∃ ifd, readIfd fd file o = some ifd := by
  intro l
  induction l with
  | nil =>
    intro start stop _ o ho
    exact absurd ho (by simp)
  | cons a rest ih =>
    rintro start stop ⟨rfl, h0, ifd, hr, hseg⟩ o ho
    rcases List.mem_cons.1 ho with rfl | hmem
    · exact ⟨ifd, hr⟩
    · exact ih hseg o hmem

theorem chainSeg_ne_zero {fd : FormatDescriptor} {file : List Nat} :
    ∀ {l : List Nat} {start stop : Nat},
    chainSeg fd file start l stop → ∀ o ∈ l, o ≠ 0 := by
  intro l
  induction l with
  | nil =>
    intro start stop _ o ho
    exact absurd ho (by simp)
  | cons a rest ih =>
    rintro start stop ⟨rfl, h0, ifd, hr, hseg⟩ o ho
    rcases List.mem_cons.1 ho with rfl | hmem
    · exact h0
    · exact ih hseg o hmem

/-! ### Directory-list lemmas -/

theorem buildIfds_cons_inv {fd : FormatDescriptor} {file : List Nat} {p : ParsedPage}
    {ps : List ParsedPage} {is : List IfdInfo}
    (h : buildIfds fd file (p :: ps) = some is) :
    ∃ i is', readIfd fd file p.offset = some i ∧ buildIfds fd file ps = some is' ∧
      is = i :: is' := by
  rcases h1 : readIfd fd file p.offset with _ | i <;>
    rcases h2 : buildIfds fd file ps with _ | is' <;>
      simp only [buildIfds, h1, h2] at h <;>
        first
        | exact Option.noConfusion h
        | exact ⟨i, is', rfl, rfl, (Option.some.inj h).symm⟩

theorem buildIfds_cons_mk {fd : FormatDescriptor} {file : List Nat} {p : ParsedPage}
    {ps : List ParsedPage} {i : IfdInfo} {is : List IfdInfo}
    (h1 : readIfd fd file p.offset = some i) (h2 : buildIfds fd file ps = some is) :
    buildIfds fd file (p :: ps) = some (i :: is) := by
  simp only [buildIfds, h1, h2]

theorem buildIfds_map_this {fd : FormatDescriptor} {file : List Nat} :
    ∀ {ps : List ParsedPage} {is : List IfdInfo},
    buildIfds fd file ps = some is →
    is.map IfdInfo.this = ps.map ParsedPage.offset := by
  intro ps
  induction ps with
  | nil =>
    intro is h
    obtain rfl := Option.some.inj h
    rfl
  | cons p ps ih =>
    intro is h
    obtain ⟨i, is', h1, h2, rfl⟩ := buildIfds_cons_inv h
    obtain ⟨num_tags, _, hthis, _, _⟩ := readIfd_inv h1
    simp only [List.map_cons, hthis, ih h2]

theorem buildIfds_append_inv {fd : FormatDescriptor} {file : List Nat} :
    ∀ {ps1 ps2 : List ParsedPage} {is : List IfdInfo},
    buildIfds fd file (ps1 ++ ps2) = some is →
    ∃ is1 is2, buildIfds fd file ps1 = some is1 ∧ buildIfds fd file ps2 = some is2 ∧
      is = is1 ++ is2 := by
  intro ps1
  induction ps1 with
  | nil =>
    intro ps2 is h
    exact ⟨[], is, rfl, h, rfl⟩
  | cons p ps1 ih =>
    intro ps2 is h
    obtain ⟨i, is', h1, h2, rfl⟩ := buildIfds_cons_inv h
    obtain ⟨is1, is2, hb1, hb2, rfl⟩ := ih h2
    exact ⟨i :: is1, is2, buildIfds_cons_mk h1 hb1, hb2, rfl⟩

theorem buildIfds_some_of {fd : FormatDescriptor} {file : List Nat} :
    ∀ {ps : List ParsedPage},
    (∀ p ∈ ps, ∃ i, readIfd fd file p.offset = some i) →
    ∃ is, buildIfds fd file ps = some is := by
  intro ps
  induction ps with
  | nil => intro _; exact ⟨[], rfl⟩
  | cons p ps ih =>
    intro h
    obtain ⟨i, h1⟩ := h p (List.mem_cons_self _ _)
    obtain ⟨is, h2⟩ := ih fun q hq => h q (List.mem_cons_of_mem _ hq)
    exact ⟨i :: is, buildIfds_cons_mk h1 h2⟩

theorem buildIfds_mem {fd : FormatDescriptor} {file : List Nat} :
    ∀ {ps : List ParsedPage} {is : List IfdInfo},
    buildIfds fd file ps = some is →
    ∀ p ∈ ps, ∃ i ∈ is, readIfd fd file p.offset = some i := by
  intro ps
  induction ps with
  | nil =>
    intro is _ p hp
    exact absurd hp (by simp)
  | cons q ps ih =>
    intro is h p hp
    obtain ⟨i, is', h1, h2, rfl⟩ := buildIfds_cons_inv h
    rcases List.mem_cons.1 hp with rfl | hmem
    · exact ⟨i, List.mem_cons_self _ _, h1⟩
    · obtain ⟨j, hj, hjr⟩ := ih h2 p hmem
      exact ⟨j, List.mem_cons_of_mem _ hj, hjr⟩

theorem buildIfds_isLinked {fd : FormatDescriptor} {file : List Nat} :
    ∀ {ps : List ParsedPage} {is : List IfdInfo} {start stop : Nat},
    chainSeg fd file start (ps.map ParsedPage.offset) stop →
    buildIfds fd file ps = some is →
    isLinked start is stop := by
  intro ps
  induction ps with
  | nil =>
    intro is start stop hseg h
    obtain rfl := Option.some.inj h
    exact hseg
  | cons p ps ih =>
    intro is start stop hseg h
    obtain ⟨rfl, h0, ifd, hr, hseg'⟩ := hseg
    obtain ⟨i, is', h1, h2, rfl⟩ := buildIfds_cons_inv h
    obtain rfl : ifd = i := Option.some.inj (hr ▸ h1)
    obtain ⟨num_tags, _, hthis, _, _⟩ := readIfd_inv h1
    exact ⟨hthis, h0, ih hseg' h2⟩

/-! ### Linkage lemmas -/

theorem isLinked_append :
    ∀ {is1 : List IfdInfo} {start stop : Nat} {is2 : List IfdInfo},
    isLinked start (is1 ++ is2) stop ↔
      ∃ m, isLinked start is1 m ∧ isLinked m is2 stop := by
  intro is1
  induction is1 with
  | nil =>
    intro start stop is2
    constructor
    · intro h
      exact ⟨start, rfl, h⟩
    · rintro ⟨m, hm, h2⟩
      have h' : start = m := hm
      rwa [show start = m from h']
  | cons i is1 ih =>
    intro start stop is2
    constructor
    · rintro ⟨hthis, h0, hrest⟩
      obtain ⟨m, hA, hB⟩ := ih.1 hrest
      exact ⟨m, ⟨hthis, h0, hA⟩, hB⟩
    · rintro ⟨m, ⟨hthis, h0, hA⟩, hB⟩
      exact ⟨hthis, h0, ih.2 ⟨m, hA, hB⟩⟩

theorem isLinked_last :
    ∀ {is' : List IfdInfo} {z : IfdInfo} {start stop : Nat},
    isLinked start (is' ++ [z]) stop → z.next_ifd_value = stop := by
  intro is'
  induction is' with
  | nil =>
    rintro z start stop ⟨_, _, hlast⟩
    exact hlast
  | cons i is' ih =>
    rintro z start stop ⟨_, _, hrest⟩
    exact ih hrest

theorem isLinked_head_this {i : IfdInfo} {is : List IfdInfo} {start stop : Nat}
    (h : isLinked start (i :: is) stop) : i.this = start := h.1

theorem isLinked_next_mem :
    ∀ {is : List IfdInfo} {start stop : Nat},
    isLinked start is stop →
    ∀ x ∈ is, x.next_ifd_value = stop ∨
      x.next_ifd_value ∈ (is.map IfdInfo.this).drop 1 := by
  intro is
  induction is with
  | nil =>
    intro start stop _ x hx
    exact absurd hx (by simp)
  | cons i is ih =>
    rintro start stop ⟨hthis, h0, hrest⟩ x hx
    rcases List.mem_cons.1 hx with rfl | hmem
    · rcases is with _ | ⟨j, is'⟩
      · exact Or.inl hrest
      · refine Or.inr ?_
        have hj : j.this = x.next_ifd_value := isLinked_head_this hrest
        simp only [List.map_cons, List.drop_succ_cons, List.drop_zero]
        exact hj ▸ List.mem_cons_self _ _
    · rcases ih hrest x hmem with h | h
      · exact Or.inl h
      · refine Or.inr ?_
        simp only [List.map_cons, List.drop_succ_cons, List.drop_zero] at h ⊢
        exact (List.drop_subset 1 _) h

theorem isLinked_init_next :
    ∀ {is' : List IfdInfo} {z : IfdInfo} {start stop : Nat},
    isLinked start (is' ++ [z]) stop →
    ∀ x ∈ is', x.next_ifd_value ∈ ((is' ++ [z]).map IfdInfo.this).drop 1 := by
  intro is'
  induction is' with
  | nil =>
    intro z start stop _ x hx
    exact absurd hx (by simp)
  | cons i is' ih =>
    rintro z start stop ⟨hthis, h0, hrest⟩ x hx
    rcases List.mem_cons.1 hx with rfl | hmem
    · rcases is' with _ | ⟨j, is''⟩
      · have hz : z.this = x.next_ifd_value := isLinked_head_this hrest
        simp only [List.nil_append, List.cons_append, List.map_cons,
          List.drop_succ_cons, List.drop_zero]
        exact hz ▸ List.mem_cons_self _ _
      · have hj : j.this = x.next_ifd_value := isLinked_head_this hrest
        simp only [List.cons_append, List.map_cons, List.drop_succ_cons, List.drop_zero]
        exact hj ▸ List.mem_cons_self _ _
    · have := ih hrest x hmem
      simp only [List.cons_append, List.map_cons, List.drop_succ_cons, List.drop_zero] at this ⊢
      exact (List.drop_subset 1 _) this

/-! ### Outcome lemmas for the removal routine -/

theorem delete_invalid_type {t : TiffFile} {file : List Nat} {image_type : List Char}
    (hv : ¬(image_type = labelChars ∨ image_type = macroChars)) :
    delete_associated_image t file image_type = (DeleteResult.invalidImageType, file) := by
  unfold delete_associated_image
  rw [if_neg hv]

theorem delete_duplicate_of {t : TiffFile} {file : List Nat} {image_type : List Char}
    (hv : image_type = labelChars ∨ image_type = macroChars)
    (hdup : 1 < (t.pages.filter fun p => isSubstr image_type p.description).length) :
    delete_associated_image t file image_type = (DeleteResult.duplicateMatch, file) := by
  unfold delete_associated_image
  rw [if_pos hv, if_pos hdup]

theorem delete_noMatch_of {t : TiffFile} {file : List Nat} {image_type : List Char}
    (hv : image_type = labelChars ∨ image_type = macroChars)
    (hzero : t.pages.filter (fun p => isSubstr image_type p.description) = []) :
    delete_associated_image t file image_type = (DeleteResult.noMatch, file) := by
  unfold delete_associated_image
  rw [if_pos hv, hzero]
  simp

theorem delete_structError_of {t : TiffFile} {file : List Nat} {image_type : List Char}
    {page : ParsedPage}
    (hv : image_type = labelChars ∨ image_type = macroChars)
    (hm : t.pages.filter (fun p => isSubstr image_type p.description) = [page])
    (hb : buildIfds t.tiff file t.pages = none) :
    delete_associated_image t file image_type = (DeleteResult.structError, file) := by
  unfold delete_associated_image
  rw [if_pos hv, hm]
  simp only [List.length_cons, List.length_nil, hb]
  rw [if_neg (by omega)]

theorem delete_noPredecessor_of {t : TiffFile} {file : List Nat} {image_type : List Char}
    {page : ParsedPage} {ifds : List IfdInfo} {pageifd : IfdInfo}
    (hv : image_type = labelChars ∨ image_type = macroChars)
    (hm : t.pages.filter (fun p => isSubstr image_type p.description) = [page])
    (hb : buildIfds t.tiff file t.pages = some ifds)
    (hpi : (ifds.filter fun i => i.this == page.offset).head? = some pageifd)
    (hpr : (ifds.filter fun i => i.next_ifd_value == page.offset) = []) :
    delete_associated_image t file image_type = (DeleteResult.noPredecessor, file) := by
  unfold delete_associated_image
  rw [if_pos hv, hm]
  simp only [List.length_cons, List.length_nil, hb, hpi, hpr]
  rw [if_neg (by omega)]
  rfl

theorem delete_success_of {t : TiffFile} {file : List Nat} {image_type : List Char}
    {page : ParsedPage} {ifds : List IfdInfo} {pageifd previfd : IfdInfo}
    (hv : image_type = labelChars ∨ image_type = macroChars)
    (hm : t.pages.filter (fun p => isSubstr image_type p.description) = [page])
    (hb : buildIfds t.tiff file t.pages = some ifds)
    (hpi : (ifds.filter fun i => i.this == page.offset).head? = some pageifd)
    (hpr : (ifds.filter fun i => i.next_ifd_value == page.offset).head? = some previfd) :
    delete_associated_image t file image_type =
      (DeleteResult.success, erasePage t.tiff file page pageifd previfd) := by
  unfold delete_associated_image
  rw [if_pos hv, hm]
  simp only [List.length_cons, List.length_nil, hb, hpi, hpr]
  rw [if_neg (by omega)]

/-! ### Concrete containers used as evaluation vehicles

A little-endian classic-dialect container (entry-count field 2 bytes,
entry record 12 bytes, pointer 4 bytes) with three pages at offsets 8,
64, 160 chained `8 → 64 → 160 → 0`. Page 64 is a "macro image" page with
two strips at (112,8) and (124,4), out-of-line strip-offset and
strip-byte-count arrays (LONG, 2 values of 4 bytes each) at 132 and 140,
and an out-of-line ASCII description (12 bytes) at 148. -/

def exFD : FormatDescriptor := ⟨4, 2, 12, false⟩

def exFile : List Nat :=
  [73, 73, 42, 0, 8, 0, 0, 0]
  ++ [1, 0] ++ List.replicate 12 7 ++ [64, 0, 0, 0]
  ++ List.replicate 38 5
  ++ [3, 0] ++ List.replicate 36 7 ++ [160, 0, 0, 0]
  ++ List.replicate 6 5
  ++ List.replicate 8 9
  ++ List.replicate 4 5
  ++ List.replicate 4 9
  ++ List.replicate 4 5
  ++ [112, 0, 0, 0, 124, 0, 0, 0]
  ++ [8, 0, 0, 0, 4, 0, 0, 0]
  ++ [109, 97, 99, 114, 111, 32, 105, 109, 97, 103, 101, 0]
  ++ [1, 0] ++ List.replicate 12 7 ++ [0, 0, 0, 0]

def exPage1 : ParsedPage := ⟨8, ['s', 'l', 'i', 'd', 'e'], [], [], []⟩

def exPage2 : ParsedPage :=
  ⟨64, ['m', 'a', 'c', 'r', 'o', ' ', 'i', 'm', 'a', 'g', 'e'], [112, 124], [8, 4],
   [⟨132, 2, 4⟩, ⟨140, 2, 4⟩, ⟨148, 12, 1⟩]⟩

def exPage3 : ParsedPage := ⟨160, ['t', 'h', 'u', 'm', 'b'], [], [], []⟩

def exTiff : TiffFile := ⟨exFD, 8, [exPage1, exPage2, exPage3]⟩

/-- Variant of `exFile` whose third page's chain pointer also holds 64,
so that two directory nodes point at page 64 (a corrupt chain). -/
def exFile2 : List Nat :=
  [73, 73, 42, 0, 8, 0, 0, 0]
  ++ [1, 0] ++ List.replicate 12 7 ++ [64, 0, 0, 0]
  ++ List.replicate 38 5
  ++ [3, 0] ++ List.replicate 36 7 ++ [160, 0, 0, 0]
  ++ List.replicate 6 5
  ++ List.replicate 8 9
  ++ List.replicate 4 5
  ++ List.replicate 4 9
  ++ List.replicate 4 5
  ++ [112, 0, 0, 0, 124, 0, 0, 0]
  ++ [8, 0, 0, 0, 4, 0, 0, 0]
  ++ [109, 97, 99, 114, 111, 32, 105, 109, 97, 103, 101, 0]
  ++ [1, 0] ++ List.replicate 12 7 ++ [64, 0, 0, 0]

/-- Pages for a container whose FIRST page is the single "label" match. -/
def exPageL1 : ParsedPage := ⟨8, ['l', 'a', 'b', 'e', 'l', ' ', '1'], [], [], []⟩

def exPageL2 : ParsedPage := ⟨64, ['s', 'l', 'i', 'd', 'e'], [], [], []⟩

def exTiffL : TiffFile := ⟨exFD, 8, [exPageL1, exPageL2, exPage3]⟩

/-- Pages for a container with two "macro" matches. -/
def exPageD1 : ParsedPage := ⟨8, ['m', 'a', 'c', 'r', 'o', ' ', 'a'], [], [], []⟩

def exPageD2 : ParsedPage :=
  ⟨64, ['m', 'a', 'c', 'r', 'o', ' ', 'b'], [112, 124], [8, 4],
   [⟨132, 2, 4⟩, ⟨140, 2, 4⟩, ⟨148, 12, 1⟩]⟩

def exTiffD : TiffFile := ⟨exFD, 8, [exPageD1, exPageD2, exPage3]⟩

/-! ### Claims C4, C5 -/

/-- Claim C4: whenever two or more pages' descriptions contain the
requested (valid) category, the routine reports the duplicate-match error
and returns the file byte-for-byte unchanged — no write is performed. -/
theorem c4_duplicate_rejected (t : TiffFile) (file : List Nat) (image_type : List Char)
    (hv : image_type = labelChars ∨ image_type = macroChars)
    (hdup : 1 < (t.pages.filter fun p => isSubstr image_type p.description).length) :
    delete_associated_image t file image_type = (DeleteResult.duplicateMatch, file) :=
  delete_duplicate_of hv hdup

/-- Claim C4 witness: the duplicate-match container. -/
theorem c4_witness :
    1 < (exTiffD.pages.filter fun p => isSubstr macroChars p.description).length ∧
    delete_associated_image exTiffD exFile macroChars
      = (DeleteResult.duplicateMatch, exFile) :=
  ⟨by decide, c4_duplicate_rejected exTiffD exFile macroChars (Or.inr rfl) (by decide)⟩

/-- Claim C5: when no page matches the requested (valid) category the
routine returns the no-op outcome (not an error) with the file
byte-for-byte unchanged, and repeating the call yields the same no-op
result again. -/
theorem c5_no_match_noop (t : TiffFile) (file : List Nat) (image_type : List Char)
    (hv : image_type = labelChars ∨ image_type = macroChars)
    (hzero : t.pages.filter (fun p => isSubstr image_type p.description) = []) :
    delete_associated_image t file image_type = (DeleteResult.noMatch, file) ∧
    delete_associated_image t
        (delete_associated_image t file image_type).2 image_type
      = (DeleteResult.noMatch, file) := by
  have h1 := @delete_noMatch_of t file image_type hv hzero
  refine ⟨h1, ?_⟩
  rw [h1]
  exact @delete_noMatch_of t file image_type hv hzero

/-- Claim C5 witness: removing "label" from the macro-only container. -/
theorem c5_witness :
    delete_associated_image exTiff exFile labelChars = (DeleteResult.noMatch, exFile) ∧
    delete_associated_image exTiff
        (delete_associated_image exTiff exFile labelChars).2 labelChars
      = (DeleteResult.noMatch, exFile) :=
  c5_no_match_noop exTiff exFile labelChars (Or.inl rfl) (by decide)

/-! ### Claim C7 -/

/-- Claim C7: for every directory the model reads, the chain-pointer slot
position equals `this_offset + entry-count-field-width + entry_count *
entry-record-width` (the spec-side formula `specNextPointerOffset`), where
`entry_count` is the unsigned integer read at `this_offset` in the
container's byte order, and the pointer value is the pointer-width integer
read at that computed position. -/
theorem c7_next_pointer_formula (fd : FormatDescriptor) (file : List Nat) (off : Nat)
    (ifd : IfdInfo) (h : readIfd fd file off = some ifd) :
    ∃ entry_count,
      readUInt fd.bigEndian file off fd.tagnosize = some entry_count ∧
      ifd.this = off ∧
      ifd.next_ifd_offset = specNextPointerOffset fd off entry_count ∧
      readUInt fd.bigEndian file ifd.next_ifd_offset fd.offsetsize
        = some ifd.next_ifd_value := by
  obtain ⟨n, h1, h2, h3, h4⟩ := readIfd_inv h
  exact ⟨n, h1, h2, h3, h4⟩

/-- Claim C7 witness: the first directory of the concrete container. -/
theorem c7_witness :
    readIfd exFD exFile 8 = some ⟨8, 22, 64⟩ ∧
    ∃ entry_count,
      readUInt exFD.bigEndian exFile 8 exFD.tagnosize = some entry_count ∧
      (⟨8, 22, 64⟩ : IfdInfo).this = 8 ∧
      (⟨8, 22, 64⟩ : IfdInfo).next_ifd_offset = specNextPointerOffset exFD 8 entry_count ∧
      readUInt exFD.bigEndian exFile (⟨8, 22, 64⟩ : IfdInfo).next_ifd_offset exFD.offsetsize
        = some (⟨8, 22, 64⟩ : IfdInfo).next_ifd_value :=
  ⟨by decide, c7_next_pointer_formula exFD exFile 8 ⟨8, 22, 64⟩ (by decide)⟩

/-! ### Claim C2 -/

theorem readBytes_writeBytes_self_len (file : List Nat) (off n : Nat) (d : List Nat)
    (h : n = d.length) : readBytes (writeBytes file off d) off n = d := by
  rw [h]
  exact readBytes_writeBytes_self file off d

theorem erasePage_eq_writeBytes_last (fd : FormatDescriptor) (file : List Nat)
    (page : ParsedPage) (pageifd previfd : IfdInfo) :
    erasePage fd file page pageifd previfd =
      writeBytes
        (applyWrites file
          (((page.stripOffsets.zip page.stripByteCounts).map fun ob =>
              (ob.1, List.replicate ob.2 0))
            ++ (page.tags.map fun tg => (tg.valueoffset, List.replicate tg.count 0))
            ++ [(pageifd.this,
                List.replicate (pageifd.next_ifd_offset - pageifd.this + fd.offsetsize) 0)]))
        previfd.next_ifd_offset
        (natToBytes fd.bigEndian fd.offsetsize pageifd.next_ifd_value) := by
  unfold erasePage eraseWrites
  rw [show ((page.stripOffsets.zip page.stripByteCounts).map fun ob =>
        (ob.1, List.replicate ob.2 0))
      ++ (page.tags.map fun tg => (tg.valueoffset, List.replicate tg.count 0))
      ++ [(pageifd.this,
            List.replicate (pageifd.next_ifd_offset - pageifd.this + fd.offsetsize) 0),
          (previfd.next_ifd_offset,
            natToBytes fd.bigEndian fd.offsetsize pageifd.next_ifd_value)]
      = (((page.stripOffsets.zip page.stripByteCounts).map fun ob =>
            (ob.1, List.replicate ob.2 0))
          ++ (page.tags.map fun tg => (tg.valueoffset, List.replicate tg.count 0))
          ++ [(pageifd.this,
              List.replicate (pageifd.next_ifd_offset - pageifd.this + fd.offsetsize) 0)])
        ++ [(previfd.next_ifd_offset,
              natToBytes fd.bigEndian fd.offsetsize pageifd.next_ifd_value)]
      by simp]
  rw [applyWrites_append]
  rfl

/-- Claim C2: on every successful removal the predecessor's chain-pointer
slot is overwritten with the removed page's own original next-pointer
value, encoded with the Format Descriptor's pointer width and byte order
(so removing a tail page writes the original terminal sentinel). -/
theorem c2_predecessor_patch (t : TiffFile) (file : List Nat) (image_type : List Char)
    (page : ParsedPage) (ifds : List IfdInfo) (pageifd previfd : IfdInfo)
    (hv : image_type = labelChars ∨ image_type = macroChars)
    (hm : t.pages.filter (fun p => isSubstr image_type p.description) = [page])
    (hb : buildIfds t.tiff file t.pages = some ifds)
    (hpi : (ifds.filter fun i => i.this == page.offset).head? = some pageifd)
    (hpr : (ifds.filter fun i => i.next_ifd_value == page.offset).head? = some previfd) :
    delete_associated_image t file image_type =
      (DeleteResult.success, erasePage t.tiff file page pageifd previfd) ∧
    readBytes (erasePage t.tiff file page pageifd previfd)
        previfd.next_ifd_offset t.tiff.offsetsize
      = natToBytes t.tiff.bigEndian t.tiff.offsetsize pageifd.next_ifd_value := by
  refine ⟨delete_success_of hv hm hb hpi hpr, ?_⟩
  rw [erasePage_eq_writeBytes_last]
  exact readBytes_writeBytes_self_len _ _ _ _ (natToBytes_length _ _ _).symm

/-- Claim C2 witness: removing the "macro" page of the concrete container
patches the first page's slot (offset 22) with 160, the removed page's
original next-pointer value. -/
theorem c2_witness :
    delete_associated_image exTiff exFile macroChars
      = (DeleteResult.success, erasePage exFD exFile exPage2 ⟨64, 102, 160⟩ ⟨8, 22, 64⟩) ∧
    readBytes (erasePage exFD exFile exPage2 ⟨64, 102, 160⟩ ⟨8, 22, 64⟩) 22 4
      = natToBytes false 4 160 :=
  c2_predecessor_patch exTiff exFile macroChars exPage2
    [⟨8, 22, 64⟩, ⟨64, 102, 160⟩, ⟨160, 174, 0⟩] ⟨64, 102, 160⟩ ⟨8, 22, 64⟩
    (Or.inr rfl) (by decide) (by decide) (by decide) (by decide)

/-! ### Claims C6, C9 -/

theorem delete_noPred_of_no_pointer {t : TiffFile} {file : List Nat}
    {image_type : List Char} {page : ParsedPage} {ifds : List IfdInfo}
    (hv : image_type = labelChars ∨ image_type = macroChars)
    (hm : t.pages.filter (fun p => isSubstr image_type p.description) = [page])
    (hb : buildIfds t.tiff file t.pages = some ifds)
    (hno : ∀ i ∈ ifds, i.next_ifd_value ≠ page.offset) :
    delete_associated_image t file image_type = (DeleteResult.noPredecessor, file) := by
  have hpmem : page ∈ t.pages := by
    have hme : page ∈ t.pages.filter (fun p => isSubstr image_type p.description) := by
      rw [hm]
      exact List.mem_cons_self _ _
    exact List.mem_of_mem_filter hme
  obtain ⟨pageifd, hpImem, hpIrd⟩ := buildIfds_mem hb page hpmem
  obtain ⟨_, _, hthis, _, _⟩ := readIfd_inv hpIrd
  have hmemf : pageifd ∈ ifds.filter fun i => i.this == page.offset :=
    List.mem_filter.2 ⟨hpImem, by simp [hthis]⟩
  have hpi : ∃ pi, (ifds.filter fun i => i.this == page.offset).head? = some pi := by
    rcases hfe : ifds.filter fun i => i.this == page.offset with _ | ⟨a, l⟩
    · rw [hfe] at hmemf
      exact absurd hmemf (by simp)
    · refine ⟨a, ?_⟩
      rw [hfe]
      rfl
  obtain ⟨pi, hpi⟩ := hpi
  refine delete_noPredecessor_of hv hm hb hpi ?_
  exact List.filter_eq_nil_iff.2 fun i hi => by simpa using hno i hi

/-- Claim C6: when a single page matches the requested (valid) category
but no directory node's next-pointer value equals that page's offset, the
routine raises the structural-integrity (no-predecessor) error and the
file component is returned byte-for-byte unchanged: no destructive write
happens. -/
theorem c6_no_predecessor_error (t : TiffFile) (file : List Nat)
    (image_type : List Char) (page : ParsedPage) (ifds : List IfdInfo)
    (hv : image_type = labelChars ∨ image_type = macroChars)
    (hm : t.pages.filter (fun p => isSubstr image_type p.description) = [page])
    (hb : buildIfds t.tiff file t.pages = some ifds)
    (hno : ∀ i ∈ ifds, i.next_ifd_value ≠ page.offset) :
    delete_associated_image t file image_type = (DeleteResult.noPredecessor, file) :=
  delete_noPred_of_no_pointer hv hm hb hno

/-- Claim C6 witness: the label-first container, whose matching page at
offset 8 is pointed to by no directory node. -/
theorem c6_witness :
    (∀ i ∈ [(⟨8, 22, 64⟩ : IfdInfo), ⟨64, 102, 160⟩, ⟨160, 174, 0⟩],
      i.next_ifd_value ≠ 8) ∧
    delete_associated_image exTiffL exFile labelChars
      = (DeleteResult.noPredecessor, exFile) :=
  ⟨by decide,
   c6_no_predecessor_error exTiffL exFile labelChars exPageL1
     [⟨8, 22, 64⟩, ⟨64, 102, 160⟩, ⟨160, 174, 0⟩] (Or.inl rfl)
     (by decide) (by decide) (by decide)⟩

/-- Claim C9: when the single matching page is the first page of the
chain (the node the header's first-directory offset reaches first), the
routine always fails with the no-predecessor structural error and leaves
the file unchanged, because only directory nodes built from the page list
are searched for a predecessor — the container header is never
considered. -/
theorem c9_first_page_unreachable (t : TiffFile) (file : List Nat)
    (image_type : List Char) (page : ParsedPage) (fuel : Nat)
    (hv : image_type = labelChars ∨ image_type = macroChars)
    (hm : t.pages.filter (fun p => isSubstr image_type p.description) = [page])
    (hhead : t.pages.head? = some page)
    (hwalk : walkChain t.tiff file fuel t.firstIFD
      = some (t.pages.map ParsedPage.offset))
    (hnodup : (t.pages.map ParsedPage.offset).Nodup) :
    delete_associated_image t file image_type = (DeleteResult.noPredecessor, file) := by
  have hseg := walkChain_sound hwalk
  have hrd : ∀ p ∈ t.pages, ∃ i, readIfd t.tiff file p.offset = some i := fun p hp =>
    chainSeg_readIfd_some hseg p.offset (List.mem_map_of_mem _ hp)
  obtain ⟨ifds, hb⟩ := buildIfds_some_of hrd
  have hlink := buildIfds_isLinked hseg hb
  have hthis := buildIfds_map_this hb
  rcases hps : t.pages with _ | ⟨p0, rest⟩
  · rw [hps] at hhead
    exact absurd hhead (by simp)
  · have hp0 : p0 = page := by
      rw [hps] at hhead
      simpa using hhead
    subst hp0
    have hne0 : p0.offset ≠ 0 := by
      refine chainSeg_ne_zero hseg p0.offset ?_
      rw [hps]
      simp
    have hnotin : p0.offset ∉ rest.map ParsedPage.offset := by
      have hnd := hnodup
      rw [hps] at hnd
      simp only [List.map_cons, List.nodup_cons] at hnd
      exact hnd.1
    refine delete_noPred_of_no_pointer hv hm hb ?_
    intro i hi hcon
    rcases isLinked_next_mem hlink i hi with h0 | hmem
    · exact hne0 (hcon ▸ h0)
    · rw [hthis, hps] at hmem
      simp only [List.map_cons, List.drop_succ_cons, List.drop_zero] at hmem
      exact hnotin (hcon ▸ hmem)

/-- Claim C9 witness: the label-first three-page container walks
`8 → 64 → 160 → 0` and removal of "label" (page 8) fails with the
no-predecessor error. -/
theorem c9_witness :
    exTiffL.pages.head? = some exPageL1 ∧
    walkChain exTiffL.tiff exFile 3 exTiffL.firstIFD
      = some (exTiffL.pages.map ParsedPage.offset) ∧
    delete_associated_image exTiffL exFile labelChars
      = (DeleteResult.noPredecessor, exFile) :=
  ⟨rfl, by decide,
   c9_first_page_unreachable exTiffL exFile labelChars exPageL1 3 (Or.inl rfl)
     (by decide) rfl (by decide) (by decide)⟩

/-! ### Claim C10 -/

/-- Claim C10: when two or more directory nodes' next-pointer values equal
the located page's offset (an invariant violation), no error is raised:
the routine selects the first such node in page-list order, reports
success, and the written file is exactly the erase sequence using that
first node's slot; any further predecessor's slot whose range is disjoint
from all writes keeps its original bytes. -/
theorem c10_multiple_predecessors (t : TiffFile) (file : List Nat)
    (image_type : List Char) (page : ParsedPage) (ifds : List IfdInfo)
    (pageifd q q2 : IfdInfo) (rest : List IfdInfo)
    (hv : image_type = labelChars ∨ image_type = macroChars)
    (hm : t.pages.filter (fun p => isSubstr image_type p.description) = [page])
    (hb : buildIfds t.tiff file t.pages = some ifds)
    (hpi : (ifds.filter fun i => i.this == page.offset).head? = some pageifd)
    (hpr2 : (ifds.filter fun i => i.next_ifd_value == page.offset) = q :: q2 :: rest) :
    delete_associated_image t file image_type =
      (DeleteResult.success, erasePage t.tiff file page pageifd q) ∧
    ((∀ u ∈ eraseWrites t.tiff page pageifd q,
        q2.next_ifd_offset + t.tiff.offsetsize ≤ u.1 ∨
          u.1 + u.2.length ≤ q2.next_ifd_offset) →
      q2.next_ifd_offset + t.tiff.offsetsize ≤ file.length →
      readBytes (erasePage t.tiff file page pageifd q)
          q2.next_ifd_offset t.tiff.offsetsize
        = readBytes file q2.next_ifd_offset t.tiff.offsetsize) := by
  constructor
  · refine delete_success_of hv hm hb hpi ?_
    rw [hpr2]
    rfl
  · intro hdis hbound
    exact readBytes_applyWrites_disjoint file _ hdis hbound

/-- Claim C10 witness: the corrupt-chain container where pages 8 and 160
both point to page 64; removal succeeds, patches node 8 (the first
predecessor), and node 160's slot keeps its bytes. -/
theorem c10_witness :
    ([(⟨8, 22, 64⟩ : IfdInfo), ⟨64, 102, 160⟩, ⟨160, 174, 64⟩].filter
        fun i => i.next_ifd_value == 64) = [⟨8, 22, 64⟩, ⟨160, 174, 64⟩] ∧
    (delete_associated_image exTiff exFile2 macroChars =
      (DeleteResult.success, erasePage exFD exFile2 exPage2 ⟨64, 102, 160⟩ ⟨8, 22, 64⟩) ∧
    ((∀ u ∈ eraseWrites exFD exPage2 ⟨64, 102, 160⟩ ⟨8, 22, 64⟩,
        (⟨160, 174, 64⟩ : IfdInfo).next_ifd_offset + exFD.offsetsize ≤ u.1 ∨
          u.1 + u.2.length ≤ (⟨160, 174, 64⟩ : IfdInfo).next_ifd_offset) →
      (⟨160, 174, 64⟩ : IfdInfo).next_ifd_offset + exFD.offsetsize ≤ exFile2.length →
      readBytes (erasePage exFD exFile2 exPage2 ⟨64, 102, 160⟩ ⟨8, 22, 64⟩)
          (⟨160, 174, 64⟩ : IfdInfo).next_ifd_offset exFD.offsetsize
        = readBytes exFile2 (⟨160, 174, 64⟩ : IfdInfo).next_ifd_offset
            exFD.offsetsize)) :=
  ⟨by decide,
   c10_multiple_predecessors exTiff exFile2 macroChars exPage2
     [⟨8, 22, 64⟩, ⟨64, 102, 160⟩, ⟨160, 174, 64⟩] ⟨64, 102, 160⟩
     ⟨8, 22, 64⟩ ⟨160, 174, 64⟩ [] (Or.inr rfl) (by decide) (by decide)
     (by decide) (by decide)⟩

/-! ### Claim C1 -/

theorem eraseWrites_eq_zero_map (fd : FormatDescriptor) (page : ParsedPage)
    (pageifd previfd : IfdInfo) :
    eraseWrites fd page pageifd previfd
      = (zeroRanges fd page pageifd).map (fun r => (r.1, List.replicate r.2 0))
        ++ [(previfd.next_ifd_offset,
              natToBytes fd.bigEndian fd.offsetsize pageifd.next_ifd_value)] := by
  unfold eraseWrites zeroRanges
  simp [List.map_map, Function.comp]

theorem erasePage_zero_byte (fd : FormatDescriptor) (file : List Nat)
    (page : ParsedPage) (pageifd previfd : IfdInfo) {o n i : Nat}
    (hmem : (o, n) ∈ zeroRanges fd page pageifd)
    (hio : o ≤ i) (hin : i < o + n)
    (hslot : ∀ r ∈ zeroRanges fd page pageifd,
      rangesDisjoint r.1 r.2 previfd.next_ifd_offset fd.offsetsize) :
    (erasePage fd file page pageifd previfd)[i]? = some 0 := by
  obtain ⟨l1, l2, hsplit⟩ := List.append_of_mem hmem
  unfold erasePage
  rw [eraseWrites_eq_zero_map, hsplit, List.map_append, List.map_cons]
  have hre : (List.map (fun r => (r.1, List.replicate r.2 0)) l1
        ++ (o, List.replicate n 0)
          :: List.map (fun r => (r.1, List.replicate r.2 0)) l2)
      ++ [(previfd.next_ifd_offset,
            natToBytes fd.bigEndian fd.offsetsize pageifd.next_ifd_value)]
      = List.map (fun r => (r.1, List.replicate r.2 0)) l1
        ++ (o, List.replicate n 0)
          :: (List.map (fun r => (r.1, List.replicate r.2 0)) l2
            ++ [(previfd.next_ifd_offset,
                  natToBytes fd.bigEndian fd.offsetsize pageifd.next_ifd_value)]) := by
    simp
  rw [hre, applyWrites_append, applyWrites_cons]
  refine getElem?_applyWrites_zero_preserved _ _ ?_ ?_
  · exact getElem?_writeBytes_zero_mem _ hio (by simpa using hin)
  · intro w hw
    rcases List.mem_append.1 hw with hwl | hwp
    · obtain ⟨r, hr, rfl⟩ := List.mem_map.1 hwl
      exact Or.inl fun b hb => List.eq_of_mem_replicate hb
    · have hwp' : w = (previfd.next_ifd_offset,
          natToBytes fd.bigEndian fd.offsetsize pageifd.next_ifd_value) := by
        simpa using hwp
      subst hwp'
      rcases hslot (o, n) hmem with hL | hR
      · refine Or.inr (Or.inl ?_)
        simp only []
        omega
      · refine Or.inr (Or.inr ?_)
        simp only [natToBytes_length]
        omega

/-- Claim C1 counterexample: in the concrete container the routine
succeeds, the page's StripOffsets tag stores 2 values of 4 bytes each
out-of-line at 132 (its byte length 8 exceeds the 4-byte inline
capacity), yet after the removal byte 136 — inside the tag's
(value-offset, byte-length) range — holds 124, not zero: only `count`
(= 2) bytes of the 8-byte range were zeroed. -/
theorem c1_counterexample :
    (delete_associated_image exTiff exFile macroChars).1 = DeleteResult.success ∧
    exTiff.pages.filter (fun p => isSubstr macroChars p.description) = [exPage2] ∧
    (⟨132, 2, 4⟩ : TiffTag) ∈ exPage2.tags ∧
    exFD.offsetsize < 2 * 4 ∧
    132 ≤ 136 ∧ 136 < 132 + 2 * 4 ∧
    (delete_associated_image exTiff exFile macroChars).2[136]? = some 124 ∧
    ¬((delete_associated_image exTiff exFile macroChars).2[136]? = some 0) := by
  set_option maxRecDepth 8000 in decide

/-- Claim C1 (amended): after a successful removal every byte of every
strip range is zero, **the first `count` bytes** of every tag's value
range are zero (`count` is the tag's value count, not its byte length, so
the full out-of-line range is covered only when the element size is one
byte), and the removed page's directory region from its entry-count field
through its chain-pointer slot is entirely zero — provided the
predecessor's pointer slot does not overlap those ranges. -/
theorem c1_erase_zero_amended (t : TiffFile) (file : List Nat) (image_type : List Char)
    (page : ParsedPage) (ifds : List IfdInfo) (pageifd previfd : IfdInfo)
    (hv : image_type = labelChars ∨ image_type = macroChars)
    (hm : t.pages.filter (fun p => isSubstr image_type p.description) = [page])
    (hb : buildIfds t.tiff file t.pages = some ifds)
    (hpi : (ifds.filter fun i => i.this == page.offset).head? = some pageifd)
    (hpr : (ifds.filter fun i => i.next_ifd_value == page.offset).head? = some previfd)
    (hslot : ∀ r ∈ zeroRanges t.tiff page pageifd,
      rangesDisjoint r.1 r.2 previfd.next_ifd_offset t.tiff.offsetsize) :
    delete_associated_image t file image_type =
      (DeleteResult.success, erasePage t.tiff file page pageifd previfd) ∧
    (∀ ob ∈ page.stripOffsets.zip page.stripByteCounts, ∀ j < ob.2,
      (erasePage t.tiff file page pageifd previfd)[ob.1 + j]? = some 0) ∧
    (∀ tg ∈ page.tags, ∀ j < tg.count,
      (erasePage t.tiff file page pageifd previfd)[tg.valueoffset + j]? = some 0) ∧
    (∀ j < pageifd.next_ifd_offset - pageifd.this + t.tiff.offsetsize,
      (erasePage t.tiff file page pageifd previfd)[pageifd.this + j]? = some 0) := by
  refine ⟨delete_success_of hv hm hb hpi hpr, ?_, ?_, ?_⟩
  · intro ob hob j hj
    have hmem : (ob.1, ob.2) ∈ zeroRanges t.tiff page pageifd := by
      unfold zeroRanges
      exact List.mem_append.2 (Or.inl (List.mem_append.2 (Or.inl (by simpa using hob))))
    exact erasePage_zero_byte t.tiff file page pageifd previfd hmem
      (by omega) (by omega) hslot
  · intro tg htg j hj
    have hmem : (tg.valueoffset, tg.count) ∈ zeroRanges t.tiff page pageifd := by
      unfold zeroRanges
      exact List.mem_append.2 (Or.inl (List.mem_append.2 (Or.inr
        (List.mem_map.2 ⟨tg, htg, rfl⟩))))
    exact erasePage_zero_byte t.tiff file page pageifd previfd hmem
      (by omega) (by omega) hslot
  · intro j hj
    have hmem : (pageifd.this,
        pageifd.next_ifd_offset - pageifd.this + t.tiff.offsetsize)
        ∈ zeroRanges t.tiff page pageifd := by
      unfold zeroRanges
      simp
    exact erasePage_zero_byte t.tiff file page pageifd previfd hmem
      (by omega) (by omega) hslot

/-- Claim C1 witness (amended form): the concrete removal zeroes both
strip ranges, the first `count` bytes of each tag value range, and the
42-byte directory region of page 64. -/
theorem c1_witness :
    delete_associated_image exTiff exFile macroChars =
      (DeleteResult.success, erasePage exFD exFile exPage2 ⟨64, 102, 160⟩ ⟨8, 22, 64⟩) ∧
    (∀ ob ∈ exPage2.stripOffsets.zip exPage2.stripByteCounts, ∀ j < ob.2,
      (erasePage exFD exFile exPage2 ⟨64, 102, 160⟩ ⟨8, 22, 64⟩)[ob.1 + j]? = some 0) ∧
    (∀ tg ∈ exPage2.tags, ∀ j < tg.count,
      (erasePage exFD exFile exPage2 ⟨64, 102, 160⟩ ⟨8, 22, 64⟩)[tg.valueoffset + j]?
        = some 0) ∧
    (∀ j < (⟨64, 102, 160⟩ : IfdInfo).next_ifd_offset
        - (⟨64, 102, 160⟩ : IfdInfo).this + exFD.offsetsize,
      (erasePage exFD exFile exPage2 ⟨64, 102, 160⟩ ⟨8, 22, 64⟩)[(⟨64, 102, 160⟩ :
        IfdInfo).this + j]? = some 0) :=
  c1_erase_zero_amended exTiff exFile macroChars exPage2
    [⟨8, 22, 64⟩, ⟨64, 102, 160⟩, ⟨160, 174, 0⟩] ⟨64, 102, 160⟩ ⟨8, 22, 64⟩
    (Or.inr rfl) (by decide) (by decide) (by decide) (by decide) (by decide)

/-! ### Claim C8 -/

/-- Claim C8: on every successful removal (with all writes inside the
file and parser element sizes at least one byte) the total file length is
unchanged, and every byte below the file length that lies outside the
strip ranges, outside every tag's (value-offset, byte-length) range,
outside the removed page's directory region, and outside the
predecessor's pointer slot is byte-for-byte identical before and after. -/
theorem c8_frame (t : TiffFile) (file : List Nat) (image_type : List Char)
    (page : ParsedPage) (ifds : List IfdInfo) (pageifd previfd : IfdInfo)
    (hv : image_type = labelChars ∨ image_type = macroChars)
    (hm : t.pages.filter (fun p => isSubstr image_type p.description) = [page])
    (hb : buildIfds t.tiff file t.pages = some ifds)
    (hpi : (ifds.filter fun i => i.this == page.offset).head? = some pageifd)
    (hpr : (ifds.filter fun i => i.next_ifd_value == page.offset).head? = some previfd)
    (hinb : ∀ u ∈ eraseWrites t.tiff page pageifd previfd,
      u.1 + u.2.length ≤ file.length)
    (hdt : ∀ tg ∈ page.tags, 1 ≤ tg.dtypesize) :
    delete_associated_image t file image_type =
      (DeleteResult.success, erasePage t.tiff file page pageifd previfd) ∧
    (erasePage t.tiff file page pageifd previfd).length = file.length ∧
    (∀ i, i < file.length →
      (∀ ob ∈ page.stripOffsets.zip page.stripByteCounts,
        ¬(ob.1 ≤ i ∧ i < ob.1 + ob.2)) →
      (∀ tg ∈ page.tags,
        ¬(tg.valueoffset ≤ i ∧ i < tg.valueoffset + tg.count * tg.dtypesize)) →
      ¬(pageifd.this ≤ i ∧
        i < pageifd.this + (pageifd.next_ifd_offset - pageifd.this + t.tiff.offsetsize)) →
      ¬(previfd.next_ifd_offset ≤ i ∧
        i < previfd.next_ifd_offset + t.tiff.offsetsize) →
      (erasePage t.tiff file page pageifd previfd)[i]? = file[i]?) := by
  refine ⟨delete_success_of hv hm hb hpi hpr, applyWrites_length_of_inbounds _ _ hinb, ?_⟩
  intro i hi hstr htag hdir hpat
  refine getElem?_applyWrites_disjoint file _ ?_ hi
  intro u hu
  unfold eraseWrites at hu
  rcases List.mem_append.1 hu with hu' | hu'
  · rcases List.mem_append.1 hu' with hus | hut
    · obtain ⟨ob, hob, rfl⟩ := List.mem_map.1 hus
      have := hstr ob hob
      simp only [List.length_replicate]
      omega
    · obtain ⟨tg, htg, rfl⟩ := List.mem_map.1 hut
      have h1 := htag tg htg
      have h2 := hdt tg htg
      have h3 : tg.count ≤ tg.count * tg.dtypesize :=
        Nat.le_mul_of_pos_right _ (by omega)
      simp only [List.length_replicate]
      omega
  · rcases List.mem_cons.1 hu' with rfl | hu''
    · simp only [List.length_replicate]
      omega
    · have hup : u = (previfd.next_ifd_offset,
          natToBytes t.tiff.bigEndian t.tiff.offsetsize pageifd.next_ifd_value) := by
        simpa using hu''
      subst hup
      simp only [natToBytes_length]
      omega

/-- Claim C8 witness: the concrete removal keeps the 178-byte length and
the frame over all untouched offsets. -/
theorem c8_witness :
    delete_associated_image exTiff exFile macroChars =
      (DeleteResult.success, erasePage exFD exFile exPage2 ⟨64, 102, 160⟩ ⟨8, 22, 64⟩) ∧
    (erasePage exFD exFile exPage2 ⟨64, 102, 160⟩ ⟨8, 22, 64⟩).length = exFile.length ∧
    (∀ i, i < exFile.length →
      (∀ ob ∈ exPage2.stripOffsets.zip exPage2.stripByteCounts,
        ¬(ob.1 ≤ i ∧ i < ob.1 + ob.2)) →
      (∀ tg ∈ exPage2.tags,
        ¬(tg.valueoffset ≤ i ∧ i < tg.valueoffset + tg.count * tg.dtypesize)) →
      ¬((⟨64, 102, 160⟩ : IfdInfo).this ≤ i ∧
        i < (⟨64, 102, 160⟩ : IfdInfo).this + ((⟨64, 102, 160⟩ : IfdInfo).next_ifd_offset
          - (⟨64, 102, 160⟩ : IfdInfo).this + exFD.offsetsize)) →
      ¬((⟨8, 22, 64⟩ : IfdInfo).next_ifd_offset ≤ i ∧
        i < (⟨8, 22, 64⟩ : IfdInfo).next_ifd_offset + exFD.offsetsize) →
      (erasePage exFD exFile exPage2 ⟨64, 102, 160⟩ ⟨8, 22, 64⟩)[i]? = exFile[i]?) :=
  c8_frame exTiff exFile macroChars exPage2
    [⟨8, 22, 64⟩, ⟨64, 102, 160⟩, ⟨160, 174, 0⟩] ⟨64, 102, 160⟩ ⟨8, 22, 64⟩
    (Or.inr rfl) (by decide) (by decide) (by decide) (by decide)
    (by set_option maxRecDepth 8000 in decide) (by decide)

/-! ### Claim C3 -/

theorem chainSeg_start_mem_or {fd : FormatDescriptor} {file : List Nat}
    {start stop : Nat} {l : List Nat}
    (h : chainSeg fd file start l stop) : start = stop ∨ start ∈ l := by
  rcases l with _ | ⟨o, rest⟩
  · exact Or.inl h
  · refine Or.inr ?_
    rw [h.1]
    exact List.mem_cons_self _ _

/-- Claim C3: for a well-formed container (the walk from the header's
first-directory offset visits exactly the parser's page offsets in order
and those offsets are distinct; file entries are bytes) with exactly one
matching page, whenever the removal succeeds the walk over the written
file visits exactly the original offsets with the removed page's offset
erased — one fewer node, original relative order, ending at the
sentinel. The disjointness hypotheses say the surviving pages' directory
headers and pointer slots do not overlap the erased ranges or the
patched slot. -/
theorem c3_chain_after_removal (t : TiffFile) (file : List Nat) (image_type : List Char)
    (page : ParsedPage) (ifds : List IfdInfo) (pageifd previfd : IfdInfo) (fuel : Nat)
    (hv : image_type = labelChars ∨ image_type = macroChars)
    (hm : t.pages.filter (fun p => isSubstr image_type p.description) = [page])
    (hb : buildIfds t.tiff file t.pages = some ifds)
    (hpi : (ifds.filter fun i => i.this == page.offset).head? = some pageifd)
    (hpr : (ifds.filter fun i => i.next_ifd_value == page.offset).head? = some previfd)
    (hwalk : walkChain t.tiff file fuel t.firstIFD
      = some (t.pages.map ParsedPage.offset))
    (hnodup : (t.pages.map ParsedPage.offset).Nodup)
    (hbytes : ∀ b ∈ file, b < 256)
    (HD1 : ∀ ifd ∈ ifds, ifd.this ≠ page.offset →
      ∀ r ∈ zeroRanges t.tiff page pageifd,
        rangesDisjoint r.1 r.2 ifd.this t.tiff.tagnosize ∧
        rangesDisjoint r.1 r.2 ifd.next_ifd_offset t.tiff.offsetsize)
    (HD2 : ∀ ifd ∈ ifds, ifd.this ≠ page.offset →
      rangesDisjoint previfd.next_ifd_offset t.tiff.offsetsize
        ifd.this t.tiff.tagnosize ∧
      (ifd = previfd ∨ rangesDisjoint previfd.next_ifd_offset t.tiff.offsetsize
        ifd.next_ifd_offset t.tiff.offsetsize)) :
    delete_associated_image t file image_type =
      (DeleteResult.success, erasePage t.tiff file page pageifd previfd) ∧
    walkChain t.tiff (erasePage t.tiff file page pageifd previfd) fuel t.firstIFD
      = some ((t.pages.map ParsedPage.offset).erase page.offset) := by
  refine ⟨delete_success_of hv hm hb hpi hpr, ?_⟩
  have hpmem : page ∈ t.pages := by
    have hme : page ∈ t.pages.filter (fun p => isSubstr image_type p.description) := by
      rw [hm]
      exact List.mem_cons_self _ _
    exact List.mem_of_mem_filter hme
  obtain ⟨pre, post, hsplit⟩ := List.append_of_mem hpmem
  have hoffs : t.pages.map ParsedPage.offset
      = pre.map ParsedPage.offset ++ page.offset :: post.map ParsedPage.offset := by
    rw [hsplit]
    simp
  have hseg0 := walkChain_sound hwalk
  rw [hoffs] at hseg0
  obtain ⟨m, hsegPre, hsegMid⟩ := chainSeg_append.1 hseg0
  obtain ⟨hm0, hpne0, pifd, hrdPage, hsegPost⟩ := hsegMid
  subst hm0
  rw [hsplit] at hb
  obtain ⟨preI, isTail, hbPre, hbTail, hifds⟩ := buildIfds_append_inv hb
  obtain ⟨pifd2, postI, hrdPage2, hbPost, hTail⟩ := buildIfds_cons_inv hbTail
  obtain rfl : pifd = pifd2 := Option.some.inj (hrdPage.symm.trans hrdPage2)
  subst hTail
  subst hifds
  have hnd := hnodup
  rw [hoffs] at hnd
  have hN := List.nodup_append.1 hnd
  have hN1 : page.offset ∉ pre.map ParsedPage.offset := fun hc =>
    (hN.2.2 hc) (List.mem_cons_self _ _)
  have hN2 : page.offset ∉ post.map ParsedPage.offset := (List.nodup_cons.1 hN.2.1).1
  have hmapPre : preI.map IfdInfo.this = pre.map ParsedPage.offset :=
    buildIfds_map_this hbPre
  have hmapPost : postI.map IfdInfo.this = post.map ParsedPage.offset :=
    buildIfds_map_this hbPost
  have hpifdThis : pifd.this = page.offset := by
    obtain ⟨_, _, h, _, _⟩ := readIfd_inv hrdPage
    exact h
  have hfiltThis : ((preI ++ pifd :: postI).filter fun i => i.this == page.offset).head?
      = some pifd := by
    rw [List.filter_append]
    have hfp : preI.filter (fun i => i.this == page.offset) = [] := by
      refine List.filter_eq_nil_iff.2 fun x hx => ?_
      have hxthis : x.this ∈ pre.map ParsedPage.offset := by
        rw [← hmapPre]
        exact List.mem_map_of_mem _ hx
      simp only [beq_iff_eq]
      intro hc
      exact hN1 (hc ▸ hxthis)
    rw [hfp, List.filter_cons_of_pos (by simp [hpifdThis])]
    rfl
  obtain rfl : pageifd = pifd := Option.some.inj (hpi.symm.trans hfiltThis)
  rcases List.eq_nil_or_concat pre with hpre0 | ⟨pre', plast, hpreSplit⟩
  · -- the matched page is the chain head: the routine cannot have succeeded
    subst hpre0
    have hpreI : preI = [] := by
      have h0 : buildIfds t.tiff file [] = some preI := hbPre
      exact (Option.some.inj h0).symm
    subst hpreI
    have hlinkPost : isLinked pageifd.next_ifd_value postI 0 :=
      buildIfds_isLinked hsegPost hbPost
    have hfneg : ((([] : List IfdInfo) ++ pageifd :: postI).filter
        fun i => i.next_ifd_value == page.offset) = [] := by
      simp only [List.nil_append]
      refine List.filter_eq_nil_iff.2 fun x hx => ?_
      simp only [beq_iff_eq]
      rcases List.mem_cons.1 hx with rfl | hxp
      · rcases chainSeg_start_mem_or hsegPost with h0 | hmem
        · intro hc
          exact hpne0 (hc ▸ h0)
        · intro hc
          exact hN2 (hc ▸ hmem)
      · rcases isLinked_next_mem hlinkPost x hxp with h0 | hmem
        · intro hc
          exact hpne0 (by rw [← hc, h0])
        · intro hc
          have hmem2 : x.next_ifd_value ∈ post.map ParsedPage.offset := by
            rw [← hmapPost]
            exact (List.drop_subset 1 _) hmem
          exact hN2 (hc ▸ hmem2)
    rw [hfneg] at hpr
    exact absurd hpr (by simp)
  · rw [List.concat_eq_append] at hpreSplit
    subst hpreSplit
    obtain ⟨preI', lastL, hbPre', hbLast, hpreI⟩ := buildIfds_append_inv hbPre
    obtain ⟨lastI, nilI, hrdLast, hbNil, hlastL⟩ := buildIfds_cons_inv hbLast
    have hnilI : nilI = [] := (Option.some.inj hbNil).symm
    subst hnilI
    subst hlastL
    subst hpreI
    have hlinkPre : isLinked t.firstIFD (preI' ++ [lastI]) page.offset :=
      buildIfds_isLinked hsegPre hbPre
    have hfiltNext : (((preI' ++ [lastI]) ++ pageifd :: postI).filter
        fun i => i.next_ifd_value == page.offset).head? = some lastI := by
      rw [List.filter_append, List.filter_append]
      have hfp' : preI'.filter (fun i => i.next_ifd_value == page.offset) = [] := by
        refine List.filter_eq_nil_iff.2 fun x hx => ?_
        have hmem := isLinked_init_next hlinkPre x hx
        simp only [beq_iff_eq]
        intro hc
        have hsub : x.next_ifd_value ∈ (pre' ++ [plast]).map ParsedPage.offset := by
          rw [← hmapPre]
          exact (List.drop_subset 1 _) hmem
        exact hN1 (hc ▸ hsub)
      rw [hfp', List.filter_cons_of_pos (by simp [isLinked_last hlinkPre])]
      rfl
    obtain rfl : previfd = lastI := Option.some.inj (hpr.symm.trans hfiltNext)
    have hlastThis : previfd.this = plast.offset := by
      obtain ⟨_, _, h, _, _⟩ := readIfd_inv hrdLast
      exact h
    have hlastNext : previfd.next_ifd_value = page.offset := isLinked_last hlinkPre
    have hN3 : plast.offset ∉ pre'.map ParsedPage.offset := by
      have hnpre := hN.1
      rw [List.map_append] at hnpre
      have hdisj := (List.nodup_append.1 hnpre).2.2
      intro hc
      exact hdisj hc (by simp)
    have hN4 : plast.offset ∉ post.map ParsedPage.offset := by
      have hdisj := hN.2.2
      intro hc
      refine hdisj ?_ (List.mem_cons_of_mem _ hc)
      simp
    have hN5 : plast.offset ≠ page.offset := by
      intro hc
      refine hN1 ?_
      rw [← hc]
      simp
    have hvbound : pageifd.next_ifd_value < 256 ^ t.tiff.offsetsize := by
      obtain ⟨k0, _, _, _, hk2⟩ := readIfd_inv hrdPage
      exact readUInt_bound hbytes hk2
    have hpresNode : ∀ x ∈ (preI' ++ [previfd]) ++ pageifd :: postI,
        x.this ≠ page.offset → x ≠ previfd →
        readIfd t.tiff file x.this = some x →
        readIfd t.tiff (erasePage t.tiff file page pageifd previfd) x.this = some x := by
      intro x hx hxne hxnl hxr
      have hd1 := HD1 x hx hxne
      have hd2 := HD2 x hx hxne
      have hd2b : rangesDisjoint previfd.next_ifd_offset t.tiff.offsetsize
          x.next_ifd_offset t.tiff.offsetsize := by
        rcases hd2.2 with h | h
        · exact absurd h hxnl
        · exact h
      unfold erasePage
      refine readIfd_applyWrites_disjoint hxr ?_ ?_
      · intro u hu
        rw [eraseWrites_eq_zero_map] at hu
        rcases List.mem_append.1 hu with huz | hup
        · obtain ⟨r, hr, rfl⟩ := List.mem_map.1 huz
          have hdr := (hd1 r hr).1
          unfold rangesDisjoint at hdr
          simp only [List.length_replicate]
          omega
        · have hupe : u = (previfd.next_ifd_offset,
              natToBytes t.tiff.bigEndian t.tiff.offsetsize pageifd.next_ifd_value) := by
            simpa using hup
          subst hupe
          have hdp := hd2.1
          unfold rangesDisjoint at hdp
          simp only [natToBytes_length]
          omega
      · intro u hu
        rw [eraseWrites_eq_zero_map] at hu
        rcases List.mem_append.1 hu with huz | hup
        · obtain ⟨r, hr, rfl⟩ := List.mem_map.1 huz
          have hdr := (hd1 r hr).2
          unfold rangesDisjoint at hdr
          simp only [List.length_replicate]
          omega
        · have hupe : u = (previfd.next_ifd_offset,
              natToBytes t.tiff.bigEndian t.tiff.offsetsize pageifd.next_ifd_value) := by
            simpa using hup
          subst hupe
          unfold rangesDisjoint at hd2b
          simp only [natToBytes_length]
          omega
    have hpresOff : ∀ (segI : List IfdInfo) (seg : List ParsedPage),
        buildIfds t.tiff file seg = some segI →
        (∀ x ∈ segI, x ∈ (preI' ++ [previfd]) ++ pageifd :: postI) →
        (∀ p ∈ seg, p.offset ≠ page.offset ∧ p.offset ≠ plast.offset) →
        ∀ o ∈ seg.map ParsedPage.offset,
          readIfd t.tiff (erasePage t.tiff file page pageifd previfd) o
            = readIfd t.tiff file o := by
      intro segI seg hbSeg hsub hne o ho
      obtain ⟨p, hp, rfl⟩ := List.mem_map.1 ho
      obtain ⟨x, hxI, hxr⟩ := buildIfds_mem hbSeg p hp
      have hxthis : x.this = p.offset := by
        obtain ⟨_, _, h, _, _⟩ := readIfd_inv hxr
        exact h
      have h1 : x.this ≠ page.offset := by
        rw [hxthis]
        exact (hne p hp).1
      have h2 : x ≠ previfd := by
        intro hc
        have h3 := (hne p hp).2
        rw [← hxthis, hc, hlastThis] at h3
        exact h3 rfl
      rw [← hxthis]
      rw [hpresNode x (hsub x hxI) h1 h2 (by rw [hxthis]; exact hxr)]
      exact (show readIfd t.tiff file x.this = some x by rw [hxthis]; exact hxr).symm
    obtain ⟨k, hk1, hkthis, hknoff, hk2⟩ := readIfd_inv hrdLast
    have hmemLast : previfd ∈ (preI' ++ [previfd]) ++ pageifd :: postI := by simp
    have hlastNe : previfd.this ≠ page.offset := by
      rw [hlastThis]
      exact hN5
    have hdL1 := HD1 previfd hmemLast hlastNe
    have hdL2 := HD2 previfd hmemLast hlastNe
    have hnumPres : readUInt t.tiff.bigEndian
        (erasePage t.tiff file page pageifd previfd) plast.offset t.tiff.tagnosize
        = some k := by
      unfold erasePage
      refine readUInt_applyWrites_disjoint hk1 ?_
      intro u hu
      rw [eraseWrites_eq_zero_map] at hu
      rcases List.mem_append.1 hu with huz | hup
      · obtain ⟨r, hr, rfl⟩ := List.mem_map.1 huz
        have hdr := (hdL1 r hr).1
        unfold rangesDisjoint at hdr
        rw [hlastThis] at hdr
        simp only [List.length_replicate]
        omega
      · have hupe : u = (previfd.next_ifd_offset,
            natToBytes t.tiff.bigEndian t.tiff.offsetsize pageifd.next_ifd_value) := by
          simpa using hup
        subst hupe
        have hdp := hdL2.1
        unfold rangesDisjoint at hdp
        rw [hlastThis] at hdp
        simp only [natToBytes_length]
        omega
    have hslotRead : readUInt t.tiff.bigEndian
        (erasePage t.tiff file page pageifd previfd)
        previfd.next_ifd_offset t.tiff.offsetsize = some pageifd.next_ifd_value := by
      have hrb : readBytes (erasePage t.tiff file page pageifd previfd)
          previfd.next_ifd_offset t.tiff.offsetsize
          = natToBytes t.tiff.bigEndian t.tiff.offsetsize pageifd.next_ifd_value := by
        rw [erasePage_eq_writeBytes_last]
        exact readBytes_writeBytes_self_len _ _ _ _ (natToBytes_length _ _ _).symm
      unfold readUInt
      rw [hrb, if_pos (natToBytes_length _ _ _)]
      rw [bytesToNat_natToBytes _ _ _ hvbound]
    have hreadPred : readIfd t.tiff (erasePage t.tiff file page pageifd previfd)
        plast.offset
        = some ⟨plast.offset, previfd.next_ifd_offset, pageifd.next_ifd_value⟩ := by
      unfold readIfd
      rw [hnumPres, Option.some_bind]
      rw [show plast.offset + t.tiff.tagnosize + k * t.tiff.tagsize
          = previfd.next_ifd_offset by rw [hknoff]]
      rw [hslotRead, Option.some_bind]
    have hoffsPre : (pre' ++ [plast]).map ParsedPage.offset
        = pre'.map ParsedPage.offset ++ [plast.offset] := by
      simp
    rw [hoffsPre] at hsegPre
    obtain ⟨m2, hsegPre0, hsegLast0⟩ := chainSeg_append.1 hsegPre
    obtain ⟨hm2, hplne0, ifdp, hrdp, hsegNil⟩ := hsegLast0
    subst hm2
    obtain rfl : previfd = ifdp := Option.some.inj (hrdLast.symm.trans hrdp)
    have hprePres : ∀ o ∈ pre'.map ParsedPage.offset,
        readIfd t.tiff (erasePage t.tiff file page pageifd previfd) o
          = readIfd t.tiff file o := by
      refine hpresOff preI' pre' hbPre'
        (fun x hx => List.mem_append.2 (Or.inl (List.mem_append.2 (Or.inl hx)))) ?_
      intro p hp
      constructor
      · intro hc
        refine hN1 ?_
        rw [← hc]
        refine List.mem_map_of_mem _ ?_
        exact List.mem_append.2 (Or.inl hp)
      · intro hc
        refine hN3 ?_
        rw [← hc]
        exact List.mem_map_of_mem _ hp
    have hpostPres : ∀ o ∈ post.map ParsedPage.offset,
        readIfd t.tiff (erasePage t.tiff file page pageifd previfd) o
          = readIfd t.tiff file o := by
      refine hpresOff postI post hbPost
        (fun x hx => List.mem_append.2 (Or.inr (List.mem_cons_of_mem _ hx))) ?_
      intro p hp
      constructor
      · intro hc
        exact hN2 (hc ▸ List.mem_map_of_mem _ hp)
      · intro hc
        exact hN4 (hc ▸ List.mem_map_of_mem _ hp)
    have hch1 : chainSeg t.tiff (erasePage t.tiff file page pageifd previfd)
        t.firstIFD (pre'.map ParsedPage.offset) plast.offset :=
      chainSeg_preserved hsegPre0 hprePres
    have hch3 : chainSeg t.tiff (erasePage t.tiff file page pageifd previfd)
        pageifd.next_ifd_value (post.map ParsedPage.offset) 0 :=
      chainSeg_preserved hsegPost hpostPres
    have hch2 : chainSeg t.tiff (erasePage t.tiff file page pageifd previfd)
        plast.offset [plast.offset] pageifd.next_ifd_value :=
      ⟨rfl, hplne0, ⟨plast.offset, previfd.next_ifd_offset, pageifd.next_ifd_value⟩,
        hreadPred, rfl⟩
    have hchain : chainSeg t.tiff (erasePage t.tiff file page pageifd previfd)
        t.firstIFD
        ((pre'.map ParsedPage.offset ++ [plast.offset]) ++ post.map ParsedPage.offset)
        0 :=
      chainSeg_append.2 ⟨pageifd.next_ifd_value,
        chainSeg_append.2 ⟨plast.offset, hch1, hch2⟩, hch3⟩
    have hlen : ((pre'.map ParsedPage.offset ++ [plast.offset])
        ++ post.map ParsedPage.offset).length ≤ fuel := by
      have h1 := walkChain_length_le hwalk
      rw [hoffs] at h1
      simp at h1 ⊢
      omega
    have herase : (t.pages.map ParsedPage.offset).erase page.offset
        = (pre'.map ParsedPage.offset ++ [plast.offset])
          ++ post.map ParsedPage.offset := by
      rw [hoffs, List.erase_append_right _ hN1, List.erase_cons_head, hoffsPre]
    rw [herase]
    exact walkChain_complete hchain hlen

/-- Claim C3 witness: removing "macro" from the concrete three-page
container turns the walk `8 → 64 → 160 → 0` into `8 → 160 → 0`. -/
theorem c3_witness :
    delete_associated_image exTiff exFile macroChars =
      (DeleteResult.success, erasePage exFD exFile exPage2 ⟨64, 102, 160⟩ ⟨8, 22, 64⟩) ∧
    walkChain exFD (erasePage exFD exFile exPage2 ⟨64, 102, 160⟩ ⟨8, 22, 64⟩) 3 8
      = some ((exTiff.pages.map ParsedPage.offset).erase 64) :=
  c3_chain_after_removal exTiff exFile macroChars exPage2
    [⟨8, 22, 64⟩, ⟨64, 102, 160⟩, ⟨160, 174, 0⟩] ⟨64, 102, 160⟩ ⟨8, 22, 64⟩ 3
    (Or.inr rfl) (by decide) (by decide) (by decide) (by decide)
    (by set_option maxRecDepth 8000 in decide) (by decide)
    (by set_option maxRecDepth 8000 in decide)
    (by set_option maxRecDepth 8000 in decide)
    (by set_option maxRecDepth 8000 in decide)
